import Mathlib

/-!
Verification development for the soccer-picks pipeline in `src/app.py`.

The Python source is shallowly embedded: strings are processed as `List Char`
(wrapped into `String` at function boundaries), the regular expressions of the
Segmenter are run by a small backtracking matcher faithful to CPython `re`
semantics (ordered alternation, greedy/lazy repetition, leftmost match,
last-capture-wins groups; character classes are interpreted over ASCII, which
covers every input considered here), and the simple deterministic regexes of
the Canonicalizer are translated to equivalent direct scanners.  Recursions
that are not structural in Python are given an explicit fuel argument that the
wrapper instantiates with a sufficient bound, keeping every definition
kernel-executable.  Machine-level caveats are noted where they matter
(CPython `set` iteration order).
-/

namespace SoccerApp

/-- Whitespace characters recognized by Python's `str.strip`/`str.split` and
by the regex class `\s`, restricted to ASCII. -/
def pyWS (c : Char) : Bool :=
  c = ' ' || c = '\t' || c = '\n' || c = '\r' || c = '\x0b' || c = '\x0c'

/-- ASCII lowercasing, the effect of Python `str.lower` on ASCII text. -/
def asciiLower (c : Char) : Char :=
  if 'A' ≤ c ∧ c ≤ 'Z' then Char.ofNat (c.toNat + 32) else c

/-- ASCII decimal digit, the regex class `\d` on ASCII text. -/
def digitCh (c : Char) : Bool :=
  '0' ≤ c && c ≤ '9'

/-- Character class `[\d.]`. -/
def digDotCh (c : Char) : Bool :=
  digitCh c || c = '.'

/-- ASCII letter; under `re.IGNORECASE` the class `[A-Z]` matches these. -/
def letterCh (c : Char) : Bool :=
  ('A' ≤ c && c ≤ 'Z') || ('a' ≤ c && c ≤ 'z')

/-- Character class `[A-Za-z\s]`. -/
def wordWsCh (c : Char) : Bool :=
  letterCh c || pyWS c

/-- Python `str.strip()` on a character list. -/
def pyStripL (cs : List Char) : List Char :=
  ((cs.dropWhile pyWS).reverse.dropWhile pyWS).reverse

/-- Python `str.strip()`. -/
def pyStrip (s : String) : String :=
  String.mk (pyStripL s.data)

/-- Python `str.lower()` (ASCII fragment). -/
def pyLower (s : String) : String :=
  String.mk (s.data.map asciiLower)

/-- Python `str.split()` with no separator: split on whitespace runs,
dropping empty pieces.  `acc` is the current token, reversed. -/
def splitWsAux : List Char → List Char → List (List Char)
  | acc, [] => if acc.isEmpty then [] else [acc.reverse]
  | acc, c :: cs =>
    if pyWS c then
      if acc.isEmpty then splitWsAux [] cs else acc.reverse :: splitWsAux [] cs
    else splitWsAux (c :: acc) cs

/-- Python `str.split()` (no argument). -/
def splitWsL (cs : List Char) : List (List Char) :=
  splitWsAux [] cs

/-- Join character-list tokens with a single separator character
(Python `sep.join(...)` for a one-character separator). -/
def joinSepL (sep : Char) : List (List Char) → List Char
  | [] => []
  | [t] => t
  | t :: ts => t ++ sep :: joinSepL sep ts

/-- Does `pat` occur as a prefix of `cs` (exact characters)? -/
def prefAt : List Char → List Char → Bool
  | [], _ => true
  | _ :: _, [] => false
  | p :: ps, c :: cs => p = c && prefAt ps cs

/-- Python substring containment `pat in cs`. -/
def containsSub (pat : List Char) (cs : List Char) : Bool :=
  match cs with
  | [] => prefAt pat []
  | c :: rest => prefAt pat (c :: rest) || containsSub pat rest

/-- Fuelled worker for `removeAllL`; the fuel (one unit per consumed input
character) only discharges termination and is instantiated with the input
length, which always suffices. -/
def removeAllF (pat : List Char) : Nat → List Char → List Char
  | _, [] => []
  | 0, cs => cs
  | fuel + 1, c :: rest =>
    if pat.isEmpty then c :: rest
    else if prefAt pat (c :: rest) then removeAllF pat fuel (rest.drop (pat.length - 1))
    else c :: removeAllF pat fuel rest

/-- Python `s.replace(pat, '')`: delete every non-overlapping occurrence of
`pat`, scanning left to right. -/
def removeAllL (pat : List Char) (cs : List Char) : List Char :=
  removeAllF pat cs.length cs

/-- The punctuation class `[@\(\)\[\]:\-–,]` of `normalize_pick`. -/
def punctCh (c : Char) : Bool :=
  c = '@' || c = '(' || c = ')' || c = '[' || c = ']' || c = ':' ||
    c = '-' || c = '–' || c = ','

/-- The substitution `re.sub(r'[@\(\)\[\]:\-–,]', ' ', s)`. -/
def punctToSpaceL (cs : List Char) : List Char :=
  cs.map (fun c => if punctCh c then ' ' else c)

/-- Optional-dot step of the odds regex: in `\.?\d*`, a leading dot and the
digits after it are consumed greedily. -/
def dotTail (r1 : List Char) : List Char :=
  match r1 with
  | '.' :: t => t.dropWhile digitCh
  | _ => r1

/-- Remainder of the input after the regex `\d+\.?\d*\s*(?:odds)?` has matched
starting at a digit that has already been consumed: the following digits, an
optional dot with digits, whitespace, and an optional literal `odds` are
consumed greedily (no later expression constrains the munch). -/
def oddsTail (cs : List Char) : List Char :=
  if prefAt ['o', 'd', 'd', 's'] ((dotTail (cs.dropWhile digitCh)).dropWhile pyWS)
  then ((dotTail (cs.dropWhile digitCh)).dropWhile pyWS).drop 4
  else (dotTail (cs.dropWhile digitCh)).dropWhile pyWS

/-- Fuelled worker for `stripOddsL` (fuel: one unit per consumed character). -/
def stripOddsF : Nat → List Char → List Char
  | _, [] => []
  | 0, cs => cs
  | fuel + 1, c :: rest =>
    if digitCh c then stripOddsF fuel (oddsTail rest)
    else c :: stripOddsF fuel rest

/-- The substitution `re.sub(r'\d+\.?\d*\s*(?:odds)?', '', s)`: delete every
leftmost non-overlapping match.  A match can only begin at a digit. -/
def stripOddsL (cs : List Char) : List Char :=
  stripOddsF cs.length cs

/-- Attempt to match `(over|under)\s+([+\-]?[\d.]+)` at the head of `cs`,
returning the two capture groups. -/
def ouAt (cs : List Char) : Option (List Char × List Char) :=
  let kw? : Option (List Char × List Char) :=
    if prefAt ['o', 'v', 'e', 'r'] cs then some (['o', 'v', 'e', 'r'], cs.drop 4)
    else if prefAt ['u', 'n', 'd', 'e', 'r'] cs then
      some (['u', 'n', 'd', 'e', 'r'], cs.drop 5)
    else none
  match kw? with
  | none => none
  | some (kw, rest) =>
    if (rest.takeWhile pyWS).isEmpty then none
    else
      let r2 := rest.dropWhile pyWS
      let sr : List Char × List Char := match r2 with
        | '+' :: t => (['+'], t)
        | '-' :: t => (['-'], t)
        | _ => ([], r2)
      let digs := sr.2.takeWhile digDotCh
      if digs.isEmpty then none else some (kw, sr.1 ++ digs)

/-- The search `re.search(r'(over|under)\s+([+\-]?[\d.]+)', s)`: leftmost
match, scanning start positions left to right. -/
def ouSearchL : List Char → Option (List Char × List Char)
  | [] => none
  | c :: cs =>
    match ouAt (c :: cs) with
    | some r => some r
    | none => ouSearchL cs

/-- The `bet_type_map` dict of `normalize_pick`, in its Python insertion
(= iteration) order. -/
def betTypeMap : List (String × String) :=
  [("ml", "moneyline"),
   ("moneyline", "moneyline"),
   ("money line", "moneyline"),
   ("to win", "moneyline"),
   ("btts", "both_teams_to_score"),
   ("both teams to score", "both_teams_to_score"),
   ("dnb", "draw_no_bet"),
   ("draw no bet", "draw_no_bet"),
   ("ah", "asian_handicap"),
   ("asian handicap", "asian_handicap")]

/-- The degraded fallback key: `'_'.join(pick_lower.split())`. -/
def fallbackKey (pl : String) : String :=
  String.mk (joinSepL '_' (splitWsL pl.data))

/-- Subject computation of the alias branch of `normalize_pick`: remove every
occurrence of the alias, strip, punctuation to spaces, delete numeric odds
substrings, underscore-join the remaining whitespace tokens. -/
def subjectOf (pl : String) (al : String) : String :=
  String.mk (joinSepL '_'
    (splitWsL (stripOddsL (punctToSpaceL (pyStripL (removeAllL al.data pl.data))))))

/-- Embedding of `normalize_pick` (src/app.py lines 171-220).  The Python
`for alias, canonical in bet_type_map.items(): if alias in pick_lower: ...
break` loop is the first table entry whose alias is a substring. -/
def normalize_pick (pick_text : String) : String :=
  let pl := pyStrip (pyLower pick_text)
  match betTypeMap.find? (fun ab => containsSub ab.1.data pl.data) with
  | some ab =>
    let team := subjectOf pl ab.1
    if team ≠ "" then team ++ ":" ++ ab.2 else fallbackKey pl
  | none =>
    match ouSearchL pl.data with
    | some kwLine => "total:" ++ String.mk kwLine.1 ++ "_" ++ String.mk kwLine.2
    | none => fallbackKey pl

/-- Capture environment of a regex match: group number paired with the
captured characters; a later (earlier-cons'd) entry shadows an older one,
which models Python's last-capture-wins group semantics. -/
abbrev Caps : Type := List (Nat × List Char)

/-- Regex abstract syntax sufficient for the four patterns of
`extract_bet_segments`.  All repetition operators in those patterns apply to
single-character classes, so repetition is over a class.  Literals are matched
case-insensitively (all four patterns are compiled with `re.IGNORECASE`). -/
inductive RE where
  | eps
  | cls (p : Char → Bool)
  | lit (s : List Char)
  | seq (a b : RE)
  | alt (a b : RE)
  | opt (a : RE)
  | starG (p : Char → Bool)
  | plusG (p : Char → Bool)
  | plusL (p : Char → Bool)
  | grp (n : Nat) (a : RE)

/-- Case-insensitive literal test at a position. -/
def ciPrefAt (s : List Char) (input : List Char) (pos : Nat) : Bool :=
  prefAt (s.map asciiLower) (((input.drop pos).take s.length).map asciiLower)

/-- Length of the maximal run of class `p` at a position. -/
def runLen (p : Char → Bool) (input : List Char) (pos : Nat) : Nat :=
  ((input.drop pos).takeWhile p).length

/-- All ways a regex can match starting at `pos`, as `(end, captures)` pairs,
in backtracking preference order: ordered alternation, greedy `*`/`+` longest
first, lazy `+?` shortest first, optional groups attempt-first.  The head of
this list is the match CPython's backtracking engine returns. -/
def mtch (input : List Char) : RE → Nat → Caps → List (Nat × Caps)
  | .eps, pos, cp => [(pos, cp)]
  | .cls p, pos, cp =>
    match input.get? pos with
    | some c => if p c then [(pos + 1, cp)] else []
    | none => []
  | .lit s, pos, cp => if ciPrefAt s input pos then [(pos + s.length, cp)] else []
  | .seq a b, pos, cp => (mtch input a pos cp).flatMap (fun ec => mtch input b ec.1 ec.2)
  | .alt a b, pos, cp => mtch input a pos cp ++ mtch input b pos cp
  | .opt a, pos, cp => mtch input a pos cp ++ [(pos, cp)]
  | .starG p, pos, cp =>
    ((List.range (runLen p input pos + 1)).reverse).map (fun k => (pos + k, cp))
  | .plusG p, pos, cp =>
    ((List.range (runLen p input pos)).reverse).map (fun k => (pos + k + 1, cp))
  | .plusL p, pos, cp =>
    (List.range (runLen p input pos)).map (fun k => (pos + k + 1, cp))
  | .grp n a, pos, cp =>
    (mtch input a pos cp).map (fun ec => (ec.1, (n, (input.drop pos).take (ec.1 - pos)) :: ec.2))

/-- Fuelled scan implementing `re.finditer`: try a match at each position left
to right, on success emit it and resume at its end (or one past a zero-width
match).  Fuel `input.length + 1` always suffices since the position strictly
increases. -/
def finditerF (re : RE) (input : List Char) : Nat → Nat → List (Nat × Nat × Caps)
  | 0, _ => []
  | fuel + 1, pos =>
    if pos > input.length then []
    else
      match (mtch input re pos []).head? with
      | some ec => (pos, ec.1, ec.2) :: finditerF re input fuel (if pos < ec.1 then ec.1 else pos + 1)
      | none => finditerF re input fuel (pos + 1)

/-- `re.finditer(pattern, input)` as a list of `(start, end, captures)`. -/
def finditer (re : RE) (input : List Char) : List (Nat × Nat × Caps) :=
  finditerF re input (input.length + 1) 0

/-- Python `match.group(n) or ''`: the captured text, or `''` when the group
did not participate in the match. -/
def grpStr (cp : Caps) (n : Nat) : String :=
  match cp.find? (fun e => e.1 = n) with
  | some e => String.mk e.2
  | none => ""

/-- Right-nested sequencing of a pattern list. -/
def rseq : List RE → RE
  | [] => .eps
  | [r] => r
  | r :: rs => .seq r (rseq rs)

/-- Case-insensitive literal from a string. -/
def rlit (s : String) : RE :=
  .lit s.data

/-- The fragment `[A-Z][A-Za-z\s]+?` (a lazily-extended team name). -/
def teamRE : RE :=
  .seq (.cls letterCh) (.plusL wordWsCh)

/-- The fragment `(?:vs?\.?|v)`. -/
def vsTokRE : RE :=
  .alt (rseq [rlit "v", .opt (rlit "s"), .opt (rlit ".")]) (rlit "v")

/-- Separator class `[-–,]` of the combined pattern. -/
def dashCh (c : Char) : Bool :=
  c = '-' || c = '–' || c = ','

/-- Separator class `[-–]` of fallback pattern 2. -/
def dash2Ch (c : Char) : Bool :=
  c = '-' || c = '–'

/-- Sign class `[+\-]`. -/
def signCh (c : Char) : Bool :=
  c = '+' || c = '-'

/-- The fragment `(?:Over|Under)\s+[+\-]?[\d.]+(?:\s+goals?)?`. -/
def ouCoreRE : RE :=
  rseq [.alt (rlit "Over") (rlit "Under"), .plusG pyWS, .opt (.cls signCh),
    .plusG digDotCh, .opt (rseq [.plusG pyWS, rlit "goal", .opt (rlit "s")])]

/-- The combined primary pattern of `extract_bet_segments`:
`(?:([A-Z][A-Za-z\s]+?)(?:\s+(?:vs?\.?|v)\s+([A-Z][A-Za-z\s]+?))?\s*[-–,]?\s*)?`
`((?:[A-Z][A-Za-z\s]+?\s+)?(?:ML|BTTS|(?:Over|Under)\s+[+\-]?[\d.]+(?:\s+goals?)?))`
`(?:\s*@\s*([\d.]+))?` with `re.IGNORECASE`. -/
def combinedRE : RE :=
  rseq [
    .opt (rseq [.grp 1 teamRE,
      .opt (rseq [.plusG pyWS, vsTokRE, .plusG pyWS, .grp 2 teamRE]),
      .starG pyWS, .opt (.cls dashCh), .starG pyWS]),
    .grp 3 (rseq [.opt (rseq [.cls letterCh, .plusL wordWsCh, .plusG pyWS]),
      .alt (rlit "ML") (.alt (rlit "BTTS") ouCoreRE)]),
    .opt (rseq [.starG pyWS, rlit "@", .starG pyWS, .grp 4 (.plusG digDotCh)])]

/-- Fallback pattern 1: `([A-Z][A-Za-z\s]+?)\s+ML(?:\s*@\s*([\d.]+))?`. -/
def fallback1RE : RE :=
  rseq [.grp 1 teamRE, .plusG pyWS, rlit "ML",
    .opt (rseq [.starG pyWS, rlit "@", .starG pyWS, .grp 2 (.plusG digDotCh)])]

/-- Fallback pattern 2:
`([A-Z][A-Za-z\s]+?)\s+(?:vs?\.?|v)\s+([A-Z][A-Za-z\s]+?)\s*[-–]\s*([A-Za-z\s]+?)(?:\s*@\s*([\d.]+))?`. -/
def fallback2RE : RE :=
  rseq [.grp 1 teamRE, .plusG pyWS, vsTokRE, .plusG pyWS, .grp 2 teamRE,
    .starG pyWS, .cls dash2Ch, .starG pyWS, .grp 3 (.plusL wordWsCh),
    .opt (rseq [.starG pyWS, rlit "@", .starG pyWS, .grp 4 (.plusG digDotCh)])]

/-- Fallback pattern 3: `(?:Over|Under)\s+[+\-]?[\d.]+(?:\s+goals?)?`
(it has no capture groups). -/
def fallback3RE : RE :=
  ouCoreRE

/-- Build the display pick from one match of the combined pattern, per the
`team1/team2/bet/odds` assembly in `extract_bet_segments`. -/
def pickOfMatch (m : Nat × Nat × Caps) : String :=
  let team1 := pyStrip (grpStr m.2.2 1)
  let team2 := pyStrip (grpStr m.2.2 2)
  let bet := pyStrip (grpStr m.2.2 3)
  let odds := pyStrip (grpStr m.2.2 4)
  let pick :=
    if team1 ≠ "" ∧ team2 ≠ "" then team1 ++ " vs " ++ team2 ++ " - " ++ bet
    else if team1 ≠ "" then team1 ++ " " ++ bet
    else bet
  if odds ≠ "" then pick ++ " @ " ++ odds else pick

/-- Segments produced by the primary combined pattern over one line. -/
def primarySegs (cs : List Char) : List String :=
  ((finditer combinedRE cs).map pickOfMatch).filterMap
    (fun p => if pyStrip p ≠ "" then some (pyStrip p) else none)

/-- Segment produced from one match of a fallback pattern with `n` capture
groups: the non-empty captured groups joined by spaces, then stripped
(`' '.join(...).strip()`). -/
def fbSeg (ngroups : Nat) (m : Nat × Nat × Caps) : String :=
  let parts := ((List.range ngroups).map (fun i => grpStr m.2.2 (i + 1))).filter
    (fun g => g ≠ "")
  pyStrip (String.mk (joinSepL ' ' (parts.map String.data)))

/-- Segments produced by the three fallback patterns over one line, each tried
independently over the whole line, in order. -/
def fallbackSegs (cs : List Char) : List String :=
  ([(fallback1RE, 2), (fallback2RE, 4), (fallback3RE, 0)] : List (RE × Nat)).flatMap
    (fun pn => ((finditer pn.1 cs).map (fbSeg pn.2)).filter (fun p => p ≠ ""))

/-- First-seen-order deduplication, the `seen`-set loop used in both
`extract_bet_segments` and `extract_picks_and_notes` (the Python `set` is
queried only for membership, so a list models it faithfully). -/
def dedupAux {α : Type} [DecidableEq α] (seen : List α) : List α → List α
  | [] => []
  | x :: xs => if x ∈ seen then dedupAux seen xs else x :: dedupAux (x :: seen) xs

/-- Deduplicate keeping the first occurrence of each element. -/
def dedupF {α : Type} [DecidableEq α] (l : List α) : List α :=
  dedupAux [] l

/-- Embedding of `extract_bet_segments` (src/app.py lines 112-168). -/
def extract_bet_segments (line : String) : List String :=
  let segments := primarySegs line.data
  let segments := if segments.isEmpty then fallbackSegs line.data else segments
  dedupF segments

/-- Split on a literal character (Python `str.split('\n')`). -/
def splitChAux (c : Char) (acc : List Char) : List Char → List (List Char)
  | [] => [acc.reverse]
  | x :: xs => if x = c then acc.reverse :: splitChAux c [] xs else splitChAux c (x :: acc) xs

/-- Python `body.split('\n')`. -/
def splitNl (s : String) : List String :=
  (splitChAux '\n' [] s.data).map String.mk

/-- Python `'\n'.join(l)`. -/
def joinNl (l : List String) : String :=
  String.mk (joinSepL '\n' (l.map String.data))

/-- Embedding of `extract_picks_and_notes` (src/app.py lines 71-109): per
non-blank stripped line, extracted segments are accumulated (and deduplicated
at the end, first occurrence first) while every non-blank stripped line is
kept in the notes. -/
def extract_picks_and_notes (body : String) : String × String :=
  if body = "" then ("", "")
  else
    let noteLines := ((splitNl body).map pyStrip).filter (fun l => l ≠ "")
    let extracted := noteLines.flatMap (fun l => extract_bet_segments l)
    (joinNl (dedupF extracted), joinNl noteLines)

example : extract_bet_segments "Al Nassr ML" = ["Al Nassr ML"] := by decide
example : extract_bet_segments "hello" = [] := by decide
example : extract_bet_segments "Arsenal ML" = ["Ar senal ML"] := by decide
example : extract_picks_and_notes "Al Nassr ML" = ("Al Nassr ML", "Al Nassr ML") := by
  decide

example : normalize_pick "Arsenal ML" = "arsenal:moneyline" := by decide
example : normalize_pick "Arsenal ML @ 2.10" = "arsenal:moneyline" := by decide
example : normalize_pick "arsenal moneyline" = "arsenal:moneyline" := by decide
example : normalize_pick "Al Nassr ML" = "al_nassr:moneyline" := by decide
example : normalize_pick "ML" = "ml" := by decide
example : normalize_pick "Hamlet ML" = "haet:moneyline" := by decide
example : normalize_pick "Over 2.5 goals" = "total:over_2.5" := by decide
example : normalize_pick "random text" = "random_text" := by decide

/-- A node of the fetched Reddit listing payload: the `kind` tag together
with the `data` fields read by `_parse_listing`.  Absent JSON keys are
`none`; `replies` is `some children` when the `replies` value is a dict
(whose data.children list is stored directly) and `none` otherwise. -/
inductive RTree where
  | mk (kind : Option String) (id : Option String) (author : Option String)
    (body : Option String) (ups : Option Int) (downs : Option Int)
    (replies : Option (List RTree))

/-- A parsed comment dict as built by `_parse_listing`. -/
inductive PComment where
  | mk (id : Option String) (author : String) (body : String) (picks : String)
    (notes : String) (ups : Int) (downs : Int) (replies : List PComment)

/-- Field `id` of a parsed comment. -/
def PComment.id : PComment → Option String
  | .mk i _ _ _ _ _ _ _ => i

/-- Field `author` of a parsed comment. -/
def PComment.author : PComment → String
  | .mk _ a _ _ _ _ _ _ => a

/-- Field `body` of a parsed comment. -/
def PComment.body : PComment → String
  | .mk _ _ b _ _ _ _ _ => b

/-- Field `picks` of a parsed comment. -/
def PComment.picks : PComment → String
  | .mk _ _ _ p _ _ _ _ => p

/-- Field `notes` of a parsed comment. -/
def PComment.notes : PComment → String
  | .mk _ _ _ _ n _ _ _ => n

/-- Field `ups` of a parsed comment. -/
def PComment.ups : PComment → Int
  | .mk _ _ _ _ _ u _ _ => u

/-- Field `downs` of a parsed comment. -/
def PComment.downs : PComment → Int
  | .mk _ _ _ _ _ _ d _ => d

/-- Field `replies` of a parsed comment. -/
def PComment.replies : PComment → List PComment
  | .mk _ _ _ _ _ _ _ r => r

/-- Python `data.get("author") or "[deleted]"`. -/
def authorOrDeleted : Option String → String
  | some s => if s = "" then "[deleted]" else s
  | none => "[deleted]"

/-- One iteration of the `_parse_listing` loop on child `n`: skip non-`t1`
children, extract picks and notes from the body, skip the comment (and,
with it, its entire reply subtree) when no picks were found, and otherwise
build the parsed dict — `parsedReplies` parses the nested reply children. -/
def parseNodeAux (n : RTree) (parsedReplies : List RTree → List PComment) :
    Option PComment :=
  match n with
  | .mk kind idv authorv bodyv upsv downsv repliesv =>
    if kind ≠ some "t1" then none
    else
      let body := bodyv.getD ""
      let pn := extract_picks_and_notes body
      if pn.1 = "" then none
      else
        some (PComment.mk idv (authorOrDeleted authorv) body pn.1 pn.2
          (upsv.getD 0) (downsv.getD 0)
          (match repliesv with
           | some l => parsedReplies l
           | none => []))

/-- Embedding of `_parse_listing` (src/app.py lines 34-68), fuelled on the
recursion depth into nested reply listings (the fuel is instantiated above
the actual nesting depth at every use and claims quantify over it). -/
def parseListingF : Nat → List RTree → List PComment
  | 0, _ => []
  | fuel + 1, nodes =>
    nodes.foldr
      (fun n acc =>
        match parseNodeAux n (parseListingF fuel) with
        | some c => c :: acc
        | none => acc)
      []

/-- Per-key accumulator of `aggregate_picks_by_votes`; `original_texts` holds
the CONTENTS of the Python set in insertion order (iteration order of the real
set is unspecified and supplied separately at finalization). -/
structure Bucket where
  total_ups : Int
  total_downs : Int
  contributors : List String
  original_texts : List String
  notes : List String
deriving DecidableEq

/-- The defaultdict default bucket. -/
def emptyBucket : Bucket :=
  ⟨0, 0, [], [], []⟩

/-- Python `set.add` restricted to its effect on contents. -/
def addTextOnce (texts : List String) (t : String) : List String :=
  if t ∈ texts then texts else texts ++ [t]

/-- One pick occurrence of comment `c` with raw phrase `p` accumulated into a
bucket, mirroring the five mutations in the inner loop of
`aggregate_picks_by_votes`. -/
def bucketAdd (c : PComment) (p : String) (b : Bucket) : Bucket :=
  { total_ups := b.total_ups + c.ups
    total_downs := b.total_downs + c.downs
    contributors := b.contributors ++ [c.author]
    original_texts := addTextOnce b.original_texts p
    notes :=
      if c.notes ≠ "" then b.notes ++ ["**" ++ c.author ++ ":** " ++ c.notes]
      else b.notes }

/-- Insertion-ordered update of the accumulation table, the effect of
`pick_data[pick_key]` on a Python (default)dict: an existing key is updated in
place, a new key is appended at the end. -/
def upsert (k : String) (f : Bucket → Bucket) : List (String × Bucket) → List (String × Bucket)
  | [] => [(k, f emptyBucket)]
  | kb :: rest => if kb.1 = k then (kb.1, f kb.2) :: rest else kb :: upsert k f rest

/-- Python `[p.strip() for p in comment['picks'].split('\n') if p.strip()]`. -/
def individualPicks (c : PComment) : List String :=
  ((splitNl c.picks).map pyStrip).filter (fun p => p ≠ "")

/-- Accumulate one comment into the table (the body of the outer loop of
`aggregate_picks_by_votes`). -/
def processComment (bs : List (String × Bucket)) (c : PComment) : List (String × Bucket) :=
  (individualPicks c).foldl (fun bs p => upsert (normalize_pick p) (bucketAdd c p) bs) bs

/-- An emitted pick card.  The Python dict also carries a constant
`'replies': []` entry, omitted here. -/
structure Card where
  id : String
  author : String
  picks : String
  notes : String
  ups : Int
  downs : Int
  contributors : List String
  body : String
deriving DecidableEq

/-- Join with a multi-character separator (Python `sep.join`). -/
def joinSepS (sep : String) : List String → String
  | [] => ""
  | [t] => t
  | t :: ts => t ++ sep ++ joinSepS sep ts

/-- Stable ascending-by-length order used for
`sorted(data['original_texts'], key=len)`. -/
def lenLe (a b : String) : Prop :=
  a.length ≤ b.length

instance : DecidableRel lenLe := fun a b =>
  inferInstanceAs (Decidable (a.length ≤ b.length))

instance : IsTotal String lenLe :=
  ⟨fun a b => Nat.le_total a.length b.length⟩

instance : IsTrans String lenLe :=
  ⟨fun _ _ _ => Nat.le_trans⟩

/-- Finalize one key's bucket into a card.  `σ` supplies the iteration order
of the Python set `original_texts` (CPython string-set order is hash-seed
dependent and unspecified; it is always some permutation of the contents, and
every claim about finalization is settled relative to that).  The stable
`sorted(..., key=len)[0]` is the head of a stable insertion sort by length of
the enumeration. -/
def finalizeCard (σ : List String → List String) (kb : String × Bucket) : Card :=
  { id := kb.1
    author := "Community"
    picks := (List.insertionSort lenLe (σ kb.2.original_texts)).headD ""
    notes := joinSepS "\n\n---\n" kb.2.notes
    ups := kb.2.total_ups
    downs := kb.2.total_downs
    contributors := kb.2.contributors
    body := "" }

/-- Order modelling Python's stable `final_cards.sort(key=..., reverse=True)`
on position-tagged cards: strictly larger `ups` first, ties by original
position.  Tagging makes the stable sort order-theoretically unique. -/
def cardLe (a b : Nat × Card) : Prop :=
  b.2.ups < a.2.ups ∨ (a.2.ups = b.2.ups ∧ a.1 ≤ b.1)

instance : DecidableRel cardLe := fun x y =>
  inferInstanceAs (Decidable (y.2.ups < x.2.ups ∨ (x.2.ups = y.2.ups ∧ x.1 ≤ y.1)))

instance : IsTotal (Nat × Card) cardLe := by
  constructor
  intro a b
  unfold cardLe
  rcases lt_trichotomy a.2.ups b.2.ups with h | h | h
  · right; left; exact h
  · rcases Nat.le_total a.1 b.1 with h2 | h2
    · left; right; exact ⟨h, h2⟩
    · right; right; exact ⟨h.symm, h2⟩
  · left; left; exact h

instance : IsTrans (Nat × Card) cardLe := by
  constructor
  intro a b c hab hbc
  unfold cardLe at *
  rcases hab with h1 | ⟨h1, h1'⟩ <;> rcases hbc with h2 | ⟨h2, h2'⟩
  · left; omega
  · left; omega
  · left; omega
  · right; exact ⟨by omega, Nat.le_trans h1' h2'⟩

/-- Embedding of `aggregate_picks_by_votes` (src/app.py lines 223-286),
parameterized by the set-iteration choice `σ` (see `finalizeCard`). -/
def aggregate_picks_by_votes (σ : List String → List String) (comments : List PComment) :
    List Card :=
  let pickData := comments.foldl processComment []
  let cards := pickData.map (finalizeCard σ)
  (List.insertionSort cardLe cards.enum).map Prod.snd

/-- The successful path of `load_comments` (src/app.py lines 289-305) after
the file has been read and parsed: every listing's children are parsed and
concatenated, then aggregated. -/
def pipelineCards (σ : List String → List String) (fuel : Nat)
    (raws : List (List RTree)) : List Card :=
  aggregate_picks_by_votes σ (raws.flatMap (parseListingF fuel))

/-- State of the persisted `comments.json` snapshot as observed by
`load_comments`: absent; present but unreadable (OSError on open/read);
readable but not valid JSON (json.JSONDecodeError); or parsed into listing
payloads. -/
inductive FileState where
  | missing
  | ioError
  | badJson
  | parsed (raws : List (List RTree))

/-- The two exception classes that `api_comments` catches. -/
inductive LoadErr where
  | osError
  | jsonDecodeError
deriving DecidableEq

/-- Embedding of `load_comments`: a missing file yields an empty list, read
and parse failures raise, and otherwise the parsed listings are piped through
parsing and aggregation. -/
def load_comments (σ : List String → List String) (fuel : Nat) (fs : FileState) :
    Except LoadErr (List Card) :=
  match fs with
  | .missing => .ok []
  | .ioError => .error .osError
  | .badJson => .error .jsonDecodeError
  | .parsed raws => .ok (pipelineCards σ fuel raws)

/-- Embedding of the `/api/comments` endpoint (src/app.py lines 313-320):
`load_comments` errors of the two caught classes become an HTTP 500 abort,
success returns the card list. -/
def api_comments (σ : List String → List String) (fuel : Nat) (fs : FileState) :
    Except Nat (List Card) :=
  match load_comments σ fuel fs with
  | .ok cs => .ok cs
  | .error _ => .error 500

/-- Membership in the first-seen dedup: exactly the elements of `l` outside
`seen`. -/
theorem mem_dedupAux {α : Type} [DecidableEq α] (seen l : List α) (a : α) :
    a ∈ dedupAux seen l ↔ a ∈ l ∧ a ∉ seen := by
  induction l generalizing seen with
  | nil => simp [dedupAux]
  | cons x xs ih =>
    by_cases hx : x ∈ seen
    · rw [show dedupAux seen (x :: xs) = dedupAux seen xs from by
        simp [dedupAux, hx], ih]
      constructor
      · rintro ⟨h1, h2⟩
        exact ⟨List.mem_cons_of_mem _ h1, h2⟩
      · rintro ⟨h1, h2⟩
        rcases List.mem_cons.1 h1 with rfl | h1
        · exact absurd hx h2
        · exact ⟨h1, h2⟩
    · rw [show dedupAux seen (x :: xs) = x :: dedupAux (x :: seen) xs from by
        simp [dedupAux, hx]]
      simp only [List.mem_cons, ih]
      constructor
      · rintro (rfl | ⟨h1, h2⟩)
        · exact ⟨Or.inl rfl, hx⟩
        · exact ⟨Or.inr h1, fun hs => h2 (Or.inr hs)⟩
      · rintro ⟨rfl | h1, h2⟩
        · exact Or.inl rfl
        · by_cases hax : a = x
          · exact Or.inl hax
          · exact Or.inr ⟨h1, by simp [hax, h2]⟩

/-- The first-seen dedup never repeats an element. -/
theorem nodup_dedupAux {α : Type} [DecidableEq α] (seen l : List α) :
    (dedupAux seen l).Nodup := by
  induction l generalizing seen with
  | nil => simp [dedupAux]
  | cons x xs ih =>
    by_cases hx : x ∈ seen
    · simpa [dedupAux, hx] using ih seen
    · rw [show dedupAux seen (x :: xs) = x :: dedupAux (x :: seen) xs from by
        simp [dedupAux, hx]]
      refine List.Nodup.cons (fun hmem => ?_) (ih (x :: seen))
      exact ((mem_dedupAux _ _ _).1 hmem).2 (List.mem_cons_self _ _)

/-- The first-seen dedup is a sublist (it preserves relative order). -/
theorem dedupAux_sublist {α : Type} [DecidableEq α] (seen l : List α) :
    (dedupAux seen l).Sublist l := by
  induction l generalizing seen with
  | nil => simp [dedupAux]
  | cons x xs ih =>
    by_cases hx : x ∈ seen
    · rw [show dedupAux seen (x :: xs) = dedupAux seen xs from by simp [dedupAux, hx]]
      exact (ih seen).cons x
    · rw [show dedupAux seen (x :: xs) = x :: dedupAux (x :: seen) xs from by
        simp [dedupAux, hx]]
      exact (ih (x :: seen)).cons₂ x

/-- Relative order in the first-seen dedup agrees with the order of FIRST
occurrences in the input. -/
theorem dedupAux_indexOf_lt_iff {α : Type} [DecidableEq α] (seen l : List α)
    (a b : α) (ha : a ∈ l) (hb : b ∈ l) (hsa : a ∉ seen) (hsb : b ∉ seen) :
    ((dedupAux seen l).indexOf a < (dedupAux seen l).indexOf b ↔
      l.indexOf a < l.indexOf b) := by
  induction l generalizing seen with
  | nil => simp at ha
  | cons x xs ih =>
    by_cases hx : x ∈ seen
    · have hax : a ≠ x := fun h => hsa (h ▸ hx)
      have hbx : b ≠ x := fun h => hsb (h ▸ hx)
      rw [show dedupAux seen (x :: xs) = dedupAux seen xs from by simp [dedupAux, hx]]
      rw [List.indexOf_cons_ne xs (Ne.symm hax), List.indexOf_cons_ne xs (Ne.symm hbx)]
      have ha' : a ∈ xs := by
        rcases List.mem_cons.1 ha with rfl | h
        · exact absurd rfl hax
        · exact h
      have hb' : b ∈ xs := by
        rcases List.mem_cons.1 hb with rfl | h
        · exact absurd rfl hbx
        · exact h
      rw [ih seen ha' hb' hsa hsb]
      omega
    · rw [show dedupAux seen (x :: xs) = x :: dedupAux (x :: seen) xs from by
        simp [dedupAux, hx]]
      by_cases hax : a = x
      · subst hax
        rw [List.indexOf_cons_self, List.indexOf_cons_self]
        by_cases hbx : b = a
        · subst hbx; simp
        · rw [List.indexOf_cons_ne _ (Ne.symm hbx),
            List.indexOf_cons_ne _ (Ne.symm hbx)]
          simp
      · by_cases hbx : b = x
        · subst hbx
          rw [List.indexOf_cons_self, List.indexOf_cons_self,
            List.indexOf_cons_ne _ (Ne.symm hax), List.indexOf_cons_ne _ (Ne.symm hax)]
          simp
        · have ha' : a ∈ xs := by
            rcases List.mem_cons.1 ha with rfl | h
            · exact absurd rfl hax
            · exact h
          have hb' : b ∈ xs := by
            rcases List.mem_cons.1 hb with rfl | h
            · exact absurd rfl hbx
            · exact h
          rw [List.indexOf_cons_ne _ (Ne.symm hax), List.indexOf_cons_ne _ (Ne.symm hbx),
            List.indexOf_cons_ne _ (Ne.symm hax), List.indexOf_cons_ne _ (Ne.symm hbx)]
          have hsa' : a ∉ x :: seen := by simp [hax, hsa]
          have hsb' : b ∉ x :: seen := by simp [hbx, hsb]
          rw [Nat.succ_lt_succ_iff, Nat.succ_lt_succ_iff]
          exact ih (x :: seen) ha' hb' hsa' hsb'

/-- The pre-dedup segment sequence of `extract_bet_segments`: the primary
pattern's phrases, or — exactly when the primary yields none — the fallback
patterns' phrases. -/
def rawSegs (line : String) : List String :=
  if (primarySegs line.data).isEmpty then fallbackSegs line.data else primarySegs line.data

/-- Claim C7: for every line, the Segmenter's output has no duplicate
phrases, is the first-seen-order dedup of the raw segment sequence (a
sublist — order preserved — with the same members, ordered by first
occurrence), and the fallback patterns supply the raw sequence exactly when
the primary combined pattern produced zero phrases. -/
theorem claim_C7_segmenter_dedup_and_fallback (line : String) :
    (extract_bet_segments line).Nodup ∧
    extract_bet_segments line = dedupF (rawSegs line) ∧
    (extract_bet_segments line).Sublist (rawSegs line) ∧
    (∀ s, s ∈ extract_bet_segments line ↔ s ∈ rawSegs line) ∧
    (∀ a b, a ∈ rawSegs line → b ∈ rawSegs line →
      ((extract_bet_segments line).indexOf a < (extract_bet_segments line).indexOf b ↔
        (rawSegs line).indexOf a < (rawSegs line).indexOf b)) ∧
    (primarySegs line.data ≠ [] → rawSegs line = primarySegs line.data) ∧
    (primarySegs line.data = [] → rawSegs line = fallbackSegs line.data) := by
  have heq : extract_bet_segments line = dedupF (rawSegs line) := rfl
  refine ⟨heq ▸ nodup_dedupAux [] _, heq, heq ▸ dedupAux_sublist [] _, ?_, ?_, ?_, ?_⟩
  · intro s
    rw [heq]
    simpa using mem_dedupAux [] (rawSegs line) s
  · intro a b ha hb
    rw [heq]
    exact dedupAux_indexOf_lt_iff [] _ a b ha hb (by simp) (by simp)
  · intro h
    simp [rawSegs, List.isEmpty_iff, h]
  · intro h
    simp [rawSegs, List.isEmpty_iff, h]

/-- Witness for `claim_C7_segmenter_dedup_and_fallback` on the line
"Al Nassr ML" (whose primary segments are nonempty). -/
theorem claim_C7_witness :
    (extract_bet_segments "Al Nassr ML").Nodup ∧
    rawSegs "Al Nassr ML" = primarySegs "Al Nassr ML".data :=
  ⟨(claim_C7_segmenter_dedup_and_fallback "Al Nassr ML").1,
   (claim_C7_segmenter_dedup_and_fallback "Al Nassr ML").2.2.2.2.2.1 (by decide)⟩

/-- Key sequence effect of one dict access: an existing key is left in place,
a new one is appended. -/
def addKey (ks : List String) (k : String) : List String :=
  if k ∈ ks then ks else ks ++ [k]

/-- Keys of the table after an upsert. -/
theorem map_fst_upsert (k : String) (f : Bucket → Bucket) (bs : List (String × Bucket)) :
    (upsert k f bs).map Prod.fst = addKey (bs.map Prod.fst) k := by
  induction bs with
  | nil => simp [upsert, addKey]
  | cons kb rest ih =>
    by_cases h : kb.1 = k
    · subst h
      simp [upsert, addKey]
    · rw [show upsert k f (kb :: rest) = kb :: upsert k f rest from by simp [upsert, h]]
      simp only [List.map_cons, ih, addKey]
      by_cases hk : k ∈ rest.map Prod.fst
      · simp [hk, Ne.symm h]
      · simp [hk, Ne.symm h]

/-- `addKey` preserves key distinctness. -/
theorem nodup_addKey (ks : List String) (k : String) (h : ks.Nodup) :
    (addKey ks k).Nodup := by
  unfold addKey
  split
  · exact h
  · simpa [List.nodup_append] using ⟨h, by assumption⟩

/-- The keys of the accumulation table are distinct throughout the scan. -/
theorem nodup_keys_foldl (comments : List PComment) (bs : List (String × Bucket))
    (h : (bs.map Prod.fst).Nodup) :
    ((comments.foldl processComment bs).map Prod.fst).Nodup := by
  induction comments generalizing bs with
  | nil => simpa using h
  | cons c cs ih =>
    rw [List.foldl_cons]
    refine ih _ ?_
    unfold processComment
    generalize individualPicks c = ps
    induction ps generalizing bs with
    | nil => simpa using h
    | cons p pr ihp =>
      rw [List.foldl_cons]
      refine ihp _ ?_
      rw [map_fst_upsert]
      exact nodup_addKey _ _ (by assumption)

/-- Lookup of a key's bucket (`pick_data[k]` read access). -/
def lookupB (bs : List (String × Bucket)) (k : String) : Option Bucket :=
  (bs.find? (fun kb => kb.1 = k)).map (fun kb => kb.2)

/-- Total ups recorded for a key (0 when the key is absent, matching the
defaultdict default). -/
def upsTotal (bs : List (String × Bucket)) (k : String) : Int :=
  ((lookupB bs k).getD emptyBucket).total_ups

/-- Upserting a key then looking it up sees the updated bucket. -/
theorem lookupB_upsert_self (k : String) (f : Bucket → Bucket) (bs : List (String × Bucket)) :
    lookupB (upsert k f bs) k = some (f ((lookupB bs k).getD emptyBucket)) := by
  induction bs with
  | nil => simp [upsert, lookupB]
  | cons kb rest ih =>
    by_cases h : kb.1 = k
    · subst h
      simp [upsert, lookupB, List.find?_cons]
    · rw [show upsert k f (kb :: rest) = kb :: upsert k f rest from by simp [upsert, h]]
      simp only [lookupB, List.find?_cons] at ih ⊢
      simp only [show (decide (kb.1 = k)) = false from by simp [h]]
      exact ih

/-- Upserting one key leaves every other key's bucket unchanged. -/
theorem lookupB_upsert_ne (k k' : String) (hne : k' ≠ k) (f : Bucket → Bucket)
    (bs : List (String × Bucket)) :
    lookupB (upsert k f bs) k' = lookupB bs k' := by
  induction bs with
  | nil => simp [upsert, lookupB, Ne.symm hne]
  | cons kb rest ih =>
    by_cases h : kb.1 = k
    · subst h
      simp [upsert, lookupB, List.find?_cons, show (decide (kb.1 = k')) = false from by
        simp [Ne.symm hne]]
    · rw [show upsert k f (kb :: rest) = kb :: upsert k f rest from by simp [upsert, h]]
      simp only [lookupB, List.find?_cons] at ih ⊢
      by_cases h2 : kb.1 = k'
      · simp [h2]
      · simp only [show (decide (kb.1 = k')) = false from by simp [h2]]
        exact ih

/-- Number of pick phrases of comment `c` that canonicalize to key `k`. -/
def countKey (k : String) (c : PComment) : Nat :=
  ((individualPicks c).map normalize_pick).count k

/-- Accumulating a batch of phrases adds (number of phrases keyed `k`) times
the comment's ups to key `k`. -/
theorem upsTotal_foldl_picks (c : PComment) (k : String) (ps : List String)
    (bs : List (String × Bucket)) :
    upsTotal (ps.foldl (fun bs p => upsert (normalize_pick p) (bucketAdd c p) bs) bs) k =
      upsTotal bs k + ((ps.map normalize_pick).count k : Int) * c.ups := by
  induction ps generalizing bs with
  | nil => simp
  | cons p pr ih =>
    rw [List.foldl_cons, ih]
    by_cases h : normalize_pick p = k
    · subst h
      rw [show upsTotal (upsert (normalize_pick p) (bucketAdd c p) bs) (normalize_pick p) =
          upsTotal bs (normalize_pick p) + c.ups from by
        unfold upsTotal
        rw [lookupB_upsert_self]
        simp [bucketAdd]]
      rw [List.map_cons, List.count_cons]
      simp only [beq_self_eq_true, if_true]
      push_cast
      ring
    · rw [show upsTotal (upsert (normalize_pick p) (bucketAdd c p) bs) k =
          upsTotal bs k from by
        unfold upsTotal
        rw [lookupB_upsert_ne _ _ (Ne.symm h)]]
      rw [List.map_cons, List.count_cons]
      simp [h]

/-- Accumulating one comment adds `countKey k c * c.ups` to key `k`. -/
theorem upsTotal_processComment (bs : List (String × Bucket)) (c : PComment) (k : String) :
    upsTotal (processComment bs c) k = upsTotal bs k + (countKey k c : Int) * c.ups :=
  upsTotal_foldl_picks c k (individualPicks c) bs

/-- Scanning a comment list adds each comment's keyed contribution. -/
theorem upsTotal_foldl_comments (comments : List PComment) (bs : List (String × Bucket))
    (k : String) :
    upsTotal (comments.foldl processComment bs) k =
      upsTotal bs k + (comments.map (fun c => (countKey k c : Int) * c.ups)).sum := by
  induction comments generalizing bs with
  | nil => simp
  | cons c cs ih =>
    rw [List.foldl_cons, ih, upsTotal_processComment]
    simp only [List.map_cons, List.sum_cons]
    ring

/-- `enumFrom` tags do not change the underlying elements. -/
theorem enumFrom_map_snd {α : Type} : ∀ (n : Nat) (l : List α),
    (l.enumFrom n).map Prod.snd = l
  | _, [] => rfl
  | n, a :: as => by
    rw [List.enumFrom_cons, List.map_cons, enumFrom_map_snd (n + 1) as]

/-- Cards in the aggregation output are exactly the finalized buckets of the
accumulation table. -/
theorem mem_aggregate_iff (σ : List String → List String) (comments : List PComment)
    (card : Card) :
    card ∈ aggregate_picks_by_votes σ comments ↔
      ∃ kb ∈ comments.foldl processComment [], card = finalizeCard σ kb := by
  unfold aggregate_picks_by_votes
  constructor
  · intro h
    rcases List.mem_map.1 h with ⟨t, ht, rfl⟩
    have ht2 : t ∈ (((comments.foldl processComment []).map (finalizeCard σ)).enum) :=
      (List.perm_insertionSort cardLe _).mem_iff.1 ht
    have : t.2 ∈ ((comments.foldl processComment []).map (finalizeCard σ)).enum.map Prod.snd :=
      List.mem_map_of_mem _ ht2
    rw [List.enum, enumFrom_map_snd] at this
    rcases List.mem_map.1 this with ⟨kb, hkb, hkb2⟩
    exact ⟨kb, hkb, hkb2.symm⟩
  · rintro ⟨kb, hkb, rfl⟩
    have h1 : finalizeCard σ kb ∈ (comments.foldl processComment []).map (finalizeCard σ) :=
      List.mem_map_of_mem _ hkb
    have h2 : finalizeCard σ kb ∈
        ((comments.foldl processComment []).map (finalizeCard σ)).enum.map Prod.snd := by
      rw [List.enum, enumFrom_map_snd]
      exact h1
    rcases List.mem_map.1 h2 with ⟨t, ht, ht2⟩
    exact ht2 ▸ List.mem_map_of_mem _ ((List.perm_insertionSort cardLe _).mem_iff.2 ht)

/-- With distinct keys, a table entry is what lookup returns. -/
theorem lookupB_eq_of_mem (bs : List (String × Bucket)) (kb : String × Bucket)
    (hmem : kb ∈ bs) (hnd : (bs.map Prod.fst).Nodup) :
    lookupB bs kb.1 = some kb.2 := by
  induction bs with
  | nil => simp at hmem
  | cons hd rest ih =>
    rcases List.mem_cons.1 hmem with rfl | hmem'
    · simp [lookupB, List.find?_cons]
    · have hne : hd.1 ≠ kb.1 := by
        intro he
        have : kb.1 ∈ rest.map Prod.fst := List.mem_map_of_mem _ hmem'
        rw [← he] at this
        exact (List.nodup_cons.1 (by simpa using hnd)).1 this
      simp only [lookupB, List.find?_cons, show (decide (hd.1 = kb.1)) = false from by
        simp [hne]]
      exact ih hmem' (List.nodup_cons.1 (by simpa using hnd)).2

/-- Claim C2, counterexample: a single comment with ups 10 whose two distinct
phrases "Arsenal ML" and "Arsenal ML @ 2.10" both canonicalize to
"arsenal:moneyline" is counted once per PHRASE: the emitted ups is 20, not
the 10 that once-per-comment-per-key counting would give. -/
theorem claim_C2_counterexample :
    aggregate_picks_by_votes (fun l => l)
        [PComment.mk (some "c1") "carol" "" "Arsenal ML\nArsenal ML @ 2.10" "" 10 0 []] =
      [⟨"arsenal:moneyline", "Community", "Arsenal ML", "", 20, 0, ["carol", "carol"], ""⟩] ∧
    (20 : Int) ≠ 10 :=
  ⟨by decide, by decide⟩

/-- Claim C2 as amended: each card's ups is the sum over all comments of
(the number of that comment's pick phrases canonicalizing to the card's key)
times the comment's ups — i.e. one full vote contribution per PHRASE
occurrence, so a comment with two distinct phrases normalizing to the same
key contributes twice to that key. -/
theorem claim_C2_vote_sum_per_phrase (σ : List String → List String)
    (comments : List PComment) (card : Card)
    (h : card ∈ aggregate_picks_by_votes σ comments) :
    card.ups = (comments.map (fun c => (countKey card.id c : Int) * c.ups)).sum := by
  rcases (mem_aggregate_iff σ comments card).1 h with ⟨kb, hkb, rfl⟩
  have hups : (finalizeCard σ kb).ups = kb.2.total_ups := rfl
  have hid : (finalizeCard σ kb).id = kb.1 := rfl
  rw [hups, hid]
  have hnd : ((comments.foldl processComment []).map Prod.fst).Nodup :=
    nodup_keys_foldl comments [] (by simp)
  have hlook := lookupB_eq_of_mem _ kb hkb hnd
  have := upsTotal_foldl_comments comments [] kb.1
  rw [show upsTotal (comments.foldl processComment []) kb.1 = kb.2.total_ups from by
    unfold upsTotal
    rw [hlook]
    rfl] at this
  simpa [upsTotal, lookupB, emptyBucket] using this

/-- Witness for `claim_C2_vote_sum_per_phrase` on the counterexample input. -/
theorem claim_C2_vote_sum_per_phrase_witness :
    (⟨"arsenal:moneyline", "Community", "Arsenal ML", "", 20, 0, ["carol", "carol"],
        ""⟩ : Card).ups =
      ([PComment.mk (some "c1") "carol" "" "Arsenal ML\nArsenal ML @ 2.10" "" 10 0 []].map
        (fun c =>
          (countKey (⟨"arsenal:moneyline", "Community", "Arsenal ML", "", 20, 0,
            ["carol", "carol"], ""⟩ : Card).id c : Int) * c.ups)).sum :=
  claim_C2_vote_sum_per_phrase (fun l => l) _ _ (List.Mem.head _)

/-- A property of buckets holds after an upsert when it held before and is
guaranteed by the update function on any input. -/
theorem upsert_forall {P : Bucket → Prop} (k : String) (f : Bucket → Bucket)
    (bs : List (String × Bucket)) (hbs : ∀ kb ∈ bs, P kb.2) (hf : ∀ b, P (f b)) :
    ∀ kb ∈ upsert k f bs, P kb.2 := by
  induction bs with
  | nil =>
    intro kb h
    simp only [upsert, List.mem_singleton] at h
    subst h
    exact hf _
  | cons hd rest ih =>
    intro kb h
    by_cases he : hd.1 = k
    · rw [show upsert k f (hd :: rest) = (hd.1, f hd.2) :: rest from by
        simp [upsert, he]] at h
      rcases List.mem_cons.1 h with rfl | h2
      · exact hf _
      · exact hbs _ (List.mem_cons_of_mem _ h2)
    · rw [show upsert k f (hd :: rest) = hd :: upsert k f rest from by
        simp [upsert, he]] at h
      rcases List.mem_cons.1 h with rfl | h2
      · exact hbs _ (List.mem_cons_self _ _)
      · exact ih (fun x hx => hbs x (List.mem_cons_of_mem _ hx)) _ h2

/-- Every bucket in the accumulation table records at least one raw phrase
variant (it is created by its first pick occurrence). -/
theorem texts_ne_nil_foldl (comments : List PComment) (bs : List (String × Bucket))
    (hbs : ∀ kb ∈ bs, kb.2.original_texts ≠ []) :
    ∀ kb ∈ comments.foldl processComment bs, kb.2.original_texts ≠ [] := by
  induction comments generalizing bs with
  | nil => simpa using hbs
  | cons c cs ih =>
    rw [List.foldl_cons]
    refine ih _ ?_
    unfold processComment
    generalize individualPicks c = ps
    induction ps generalizing bs with
    | nil => simpa using hbs
    | cons p pr ihp =>
      rw [List.foldl_cons]
      refine ihp _ ?_
      refine @upsert_forall (fun b => b.original_texts ≠ []) (normalize_pick p)
        (bucketAdd c p) bs hbs (fun b => ?_)
      simp only [bucketAdd, addTextOnce]
      split
      · rename_i hmem
        exact fun he => List.not_mem_nil p (he ▸ hmem)
      · simp

/-- Claim C3, counterexample: one comment contributes the two distinct,
equal-length (10 characters) phrases "Arsenal ML" then "arsenal ml" to the
key "arsenal:moneyline".  Under the reversed — and, CPython string-set
iteration order being hash-seed dependent, perfectly admissible — enumeration
of the set contents, the emitted display pick is "arsenal ml", the SECOND
phrase encountered, refuting the claimed first-encounter tie-break. -/
theorem claim_C3_counterexample :
    (aggregate_picks_by_votes (fun l => l.reverse)
        [PComment.mk (some "c1") "dave" "" "Arsenal ML\narsenal ml" "" 3 0 []]).map
      Card.picks = ["arsenal ml"] ∧
    List.Perm ["Arsenal ML", "arsenal ml"].reverse ["Arsenal ML", "arsenal ml"] ∧
    "arsenal ml" ≠ "Arsenal ML" :=
  ⟨by decide, by decide, by decide⟩

/-- Claim C3 as amended: for every admissible set-iteration order (any
permutation of the recorded variant contents), the emitted `picks` is one of
the raw phrase variants observed for the key and has minimal character length
among them; which minimal-length variant is chosen follows the unspecified
set order, not necessarily first encounter. -/
theorem claim_C3_shortest_display (σ : List String → List String)
    (hσ : ∀ l, List.Perm (σ l) l) (comments : List PComment) (card : Card)
    (h : card ∈ aggregate_picks_by_votes σ comments) :
    ∃ kb ∈ comments.foldl processComment [], card.id = kb.1 ∧
      card.picks ∈ kb.2.original_texts ∧
      ∀ t ∈ kb.2.original_texts, card.picks.length ≤ t.length := by
  rcases (mem_aggregate_iff σ comments card).1 h with ⟨kb, hkb, rfl⟩
  refine ⟨kb, hkb, rfl, ?_⟩
  have hne : kb.2.original_texts ≠ [] :=
    texts_ne_nil_foldl comments [] (by simp) kb hkb
  have hperm : List.Perm (List.insertionSort lenLe (σ kb.2.original_texts))
      kb.2.original_texts :=
    (List.perm_insertionSort lenLe _).trans (hσ _)
  have hsne : List.insertionSort lenLe (σ kb.2.original_texts) ≠ [] := by
    intro he
    exact hne (List.Perm.eq_nil (he ▸ hperm).symm)
  rcases hs : List.insertionSort lenLe (σ kb.2.original_texts) with _ | ⟨hd, tl⟩
  · exact absurd hs hsne
  · have hpicks : (finalizeCard σ kb).picks = hd := by
      simp [finalizeCard, hs]
    have hsorted := List.sorted_insertionSort lenLe (σ kb.2.original_texts)
    rw [hs] at hsorted
    have hmemhd : hd ∈ kb.2.original_texts := hperm.mem_iff.1 (hs ▸ List.mem_cons_self hd tl)
    constructor
    · rw [hpicks]
      exact hmemhd
    · intro t ht
      have ht2 : t ∈ hd :: tl := hs ▸ hperm.mem_iff.2 ht
      rw [hpicks]
      rcases List.mem_cons.1 ht2 with rfl | ht3
      · exact le_refl _
      · exact List.rel_of_sorted_cons hsorted t ht3

/-- Witness for `claim_C3_shortest_display` at the identity enumeration on
the two-variant input. -/
theorem claim_C3_shortest_display_witness :
    ∃ kb ∈ [PComment.mk (some "c1") "dave" "" "Arsenal ML\narsenal ml" "" 3 0
        []].foldl processComment [],
      (⟨"arsenal:moneyline", "Community", "Arsenal ML", "", 6, 0, ["dave", "dave"],
        ""⟩ : Card).id = kb.1 ∧
      (⟨"arsenal:moneyline", "Community", "Arsenal ML", "", 6, 0, ["dave", "dave"],
        ""⟩ : Card).picks ∈ kb.2.original_texts ∧
      ∀ t ∈ kb.2.original_texts,
        (⟨"arsenal:moneyline", "Community", "Arsenal ML", "", 6, 0, ["dave", "dave"],
          ""⟩ : Card).picks.length ≤ t.length :=
  claim_C3_shortest_display (fun l => l) (fun l => List.Perm.refl l) _ _ (List.Mem.head _)

/-- Canonical keys contributed by one comment, in pick order. -/
def commentKeys (c : PComment) : List String :=
  (individualPicks c).map normalize_pick

/-- The flat sequence of canonical keys in scan order (comment by comment,
pick by pick). -/
def scanKeys (comments : List PComment) : List String :=
  comments.flatMap commentKeys

/-- Index of the first comment that contributes key `k` (list length when no
comment does). -/
def firstContribIdx (comments : List PComment) (k : String) : Nat :=
  comments.findIdx (fun c => decide (k ∈ commentKeys c))

/-- Keys of the table after accumulating a batch of phrases. -/
theorem map_fst_foldl_picks (c : PComment) (ps : List String)
    (bs : List (String × Bucket)) :
    ((ps.foldl (fun bs p => upsert (normalize_pick p) (bucketAdd c p) bs) bs).map
      Prod.fst) = (ps.map normalize_pick).foldl addKey (bs.map Prod.fst) := by
  induction ps generalizing bs with
  | nil => rfl
  | cons p pr ih =>
    rw [List.foldl_cons, ih, map_fst_upsert, List.map_cons, List.foldl_cons]

/-- Keys of the table after the whole scan. -/
theorem map_fst_foldl_comments (comments : List PComment) (bs : List (String × Bucket)) :
    ((comments.foldl processComment bs).map Prod.fst) =
      (scanKeys comments).foldl addKey (bs.map Prod.fst) := by
  induction comments generalizing bs with
  | nil => rfl
  | cons c cs ih =>
    rw [List.foldl_cons, ih,
      show scanKeys (c :: cs) = commentKeys c ++ scanKeys cs from by
        simp [scanKeys], List.foldl_append]
    congr 1
    exact map_fst_foldl_picks c (individualPicks c) bs

/-- First-seen dedup only consults the seen set through membership. -/
theorem dedupAux_congr {α : Type} [DecidableEq α] (s1 s2 l : List α)
    (h : ∀ x, x ∈ s1 ↔ x ∈ s2) : dedupAux s1 l = dedupAux s2 l := by
  induction l generalizing s1 s2 with
  | nil => rfl
  | cons x xs ih =>
    by_cases hx : x ∈ s1
    · rw [show dedupAux s1 (x :: xs) = dedupAux s1 xs from by simp [dedupAux, hx],
        show dedupAux s2 (x :: xs) = dedupAux s2 xs from by
          simp [dedupAux, (h x).1 hx]]
      exact ih s1 s2 h
    · have hx2 : x ∉ s2 := fun h2 => hx ((h x).2 h2)
      rw [show dedupAux s1 (x :: xs) = x :: dedupAux (x :: s1) xs from by
        simp [dedupAux, hx],
        show dedupAux s2 (x :: xs) = x :: dedupAux (x :: s2) xs from by
          simp [dedupAux, hx2]]
      congr 1
      refine ih _ _ (fun y => ?_)
      simp [h y]

/-- Folding `addKey` appends, in first-occurrence order, the keys not yet
present. -/
theorem foldl_addKey_eq (l : List String) (acc : List String) :
    l.foldl addKey acc = acc ++ dedupAux acc l := by
  induction l generalizing acc with
  | nil => simp [dedupAux]
  | cons x xs ih =>
    rw [List.foldl_cons]
    by_cases hx : x ∈ acc
    · rw [show addKey acc x = acc from by simp [addKey, hx], ih,
        show dedupAux acc (x :: xs) = dedupAux acc xs from by simp [dedupAux, hx]]
    · rw [show addKey acc x = acc ++ [x] from by simp [addKey, hx], ih,
        show dedupAux acc (x :: xs) = x :: dedupAux (x :: acc) xs from by
          simp [dedupAux, hx],
        dedupAux_congr (acc ++ [x]) (x :: acc) xs (by intro y; simp [or_comm])]
      simp

/-- The table keys are exactly the canonical keys in first-encounter order. -/
theorem keys_eq_dedup_scan (comments : List PComment) :
    ((comments.foldl processComment []).map Prod.fst) = dedupF (scanKeys comments) := by
  rw [map_fst_foldl_comments comments []]
  simpa [dedupF] using foldl_addKey_eq (scanKeys comments) []

/-- Index in an append when the element avoids the left part. -/
theorem indexOf_append_right {α : Type} [DecidableEq α] (pre post : List α) (a : α)
    (h : a ∉ pre) : (pre ++ post).indexOf a = pre.length + post.indexOf a := by
  induction pre with
  | nil => simp
  | cons x xs ih =>
    have hax : x ≠ a := by
      rintro rfl
      exact h (List.mem_cons_self _ _)
    rw [List.cons_append, List.indexOf_cons_ne _ hax,
      ih (fun hm => h (List.mem_cons_of_mem _ hm))]
    simp [Nat.succ_add]

/-- Index in an append when the element occurs in the left part. -/
theorem indexOf_append_left {α : Type} [DecidableEq α] (pre post : List α) (a : α)
    (h : a ∈ pre) : (pre ++ post).indexOf a = pre.indexOf a := by
  induction pre with
  | nil => simp at h
  | cons x xs ih =>
    by_cases hax : x = a
    · subst hax
      rw [List.cons_append, List.indexOf_cons_self, List.indexOf_cons_self]
    · have h' : a ∈ xs := by
        rcases List.mem_cons.1 h with rfl | h2
        · exact absurd rfl hax
        · exact h2
      rw [List.cons_append, List.indexOf_cons_ne _ hax, List.indexOf_cons_ne _ hax, ih h']

/-- Earlier first occurrence in the flat key scan means an earlier (or the
same) first contributing comment. -/
theorem firstContrib_mono (comments : List PComment) (a b : String)
    (ha : a ∈ scanKeys comments) (hb : b ∈ scanKeys comments)
    (hlt : (scanKeys comments).indexOf a < (scanKeys comments).indexOf b) :
    firstContribIdx comments a ≤ firstContribIdx comments b := by
  induction comments with
  | nil => simp [scanKeys] at ha
  | cons c cs ih =>
    have hsc : scanKeys (c :: cs) = commentKeys c ++ scanKeys cs := by simp [scanKeys]
    by_cases hac : a ∈ commentKeys c
    · rw [show firstContribIdx (c :: cs) a = 0 from by
        simp [firstContribIdx, List.findIdx_cons, hac]]
      exact Nat.zero_le _
    · by_cases hbc : b ∈ commentKeys c
      · exfalso
        have h1 : (scanKeys (c :: cs)).indexOf b < (commentKeys c).length := by
          rw [hsc, indexOf_append_left _ _ _ hbc]
          exact List.indexOf_lt_length.2 hbc
        have h2 : (commentKeys c).length ≤ (scanKeys (c :: cs)).indexOf a := by
          rw [hsc, indexOf_append_right _ _ _ hac]
          omega
        omega
      · have ha' : a ∈ scanKeys cs := by
          rcases List.mem_append.1 (hsc ▸ ha) with h2 | h2
          · exact absurd h2 hac
          · exact h2
        have hb' : b ∈ scanKeys cs := by
          rcases List.mem_append.1 (hsc ▸ hb) with h2 | h2
          · exact absurd h2 hbc
          · exact h2
        rw [show firstContribIdx (c :: cs) a = firstContribIdx cs a + 1 from by
            simp [firstContribIdx, List.findIdx_cons, hac],
          show firstContribIdx (c :: cs) b = firstContribIdx cs b + 1 from by
            simp [firstContribIdx, List.findIdx_cons, hbc]]
        refine Nat.succ_le_succ (ih ha' hb' ?_)
        rw [hsc, indexOf_append_right _ _ _ hac, indexOf_append_right _ _ _ hbc] at hlt
        omega

/-- In a duplicate-free list, the index of the element at position `n` is
`n`. -/
theorem nodup_indexOf_eq {α : Type} [DecidableEq α] (l : List α) (hl : l.Nodup)
    (n : Nat) (a : α) (h : l[n]? = some a) : l.indexOf a = n := by
  induction l generalizing n with
  | nil => simp at h
  | cons x xs ih =>
    cases n with
    | zero =>
      simp only [List.getElem?_cons_zero, Option.some_inj] at h
      subst h
      exact List.indexOf_cons_self _ _
    | succ n =>
      simp only [List.getElem?_cons_succ] at h
      have hmem : a ∈ xs := by
        rcases List.getElem?_eq_some.1 h with ⟨hn, hval⟩
        exact hval ▸ List.getElem_mem _
      have hax : x ≠ a := by
        rintro rfl
        exact (List.nodup_cons.1 hl).1 hmem
      rw [List.indexOf_cons_ne _ hax, ih (List.nodup_cons.1 hl).2 n h]

/-- Every element of the sorted tagged card list carries, as its tag, the
position of its card's key in the first-encounter key order. -/
theorem sorted_tag_spec (σ : List String → List String) (comments : List PComment)
    (t : Nat × Card)
    (ht : t ∈ List.insertionSort cardLe
      (((comments.foldl processComment []).map (finalizeCard σ)).enum)) :
    t.2.id ∈ scanKeys comments ∧
    (dedupF (scanKeys comments)).indexOf t.2.id = t.1 := by
  have ht2 : t ∈ (((comments.foldl processComment []).map (finalizeCard σ)).enum) :=
    (List.perm_insertionSort cardLe _).mem_iff.1 ht
  rw [← Prod.mk.eta (p := t), List.mk_mem_enum_iff_getElem?] at ht2
  rw [List.getElem?_map] at ht2
  rcases Option.map_eq_some'.1 ht2 with ⟨kb, hkb, hfin⟩
  have hid : t.2.id = kb.1 := by rw [← hfin]; rfl
  have hkey : (dedupF (scanKeys comments))[t.1]? = some kb.1 := by
    rw [← keys_eq_dedup_scan, List.getElem?_map, hkb]
    rfl
  have hmemd : kb.1 ∈ dedupF (scanKeys comments) := by
    rcases List.getElem?_eq_some.1 hkey with ⟨hn, hval⟩
    exact hval ▸ List.getElem_mem _
  constructor
  · rw [hid]
    exact ((mem_dedupAux [] _ _).1 hmemd).1
  · rw [hid]
    exact nodup_indexOf_eq _ (nodup_dedupAux [] _) _ _ hkey

/-- Claim C6: the Aggregator output is sorted by descending ups, and among
cards with equal ups the one whose key's first contributing comment appears
earlier in the input list comes first (the sort is stable and the
accumulation table is in first-encounter order). -/
theorem claim_C6_output_ordering (σ : List String → List String)
    (comments : List PComment) (i j : Nat) (ci cj : Card) (hij : i < j)
    (hci : (aggregate_picks_by_votes σ comments)[i]? = some ci)
    (hcj : (aggregate_picks_by_votes σ comments)[j]? = some cj) :
    cj.ups ≤ ci.ups ∧
    (ci.ups = cj.ups →
      firstContribIdx comments ci.id ≤ firstContribIdx comments cj.id) := by
  have hout : aggregate_picks_by_votes σ comments =
      (List.insertionSort cardLe
        (((comments.foldl processComment []).map (finalizeCard σ)).enum)).map
        Prod.snd := rfl
  rw [hout, List.getElem?_map] at hci hcj
  rcases Option.map_eq_some'.1 hci with ⟨ti, hti, rfl⟩
  rcases Option.map_eq_some'.1 hcj with ⟨tj, htj, rfl⟩
  rcases List.getElem?_eq_some.1 hti with ⟨hib, htiv⟩
  rcases List.getElem?_eq_some.1 htj with ⟨hjb, htjv⟩
  have hsorted := List.sorted_insertionSort cardLe
    (((comments.foldl processComment []).map (finalizeCard σ)).enum)
  have hrel : cardLe ti tj := by
    have h2 := List.pairwise_iff_getElem.1 hsorted i j hib hjb hij
    rw [htiv, htjv] at h2
    exact h2
  have hmi : ti ∈ List.insertionSort cardLe
      (((comments.foldl processComment []).map (finalizeCard σ)).enum) :=
    htiv ▸ List.getElem_mem hib
  have hmj : tj ∈ List.insertionSort cardLe
      (((comments.foldl processComment []).map (finalizeCard σ)).enum) :=
    htjv ▸ List.getElem_mem hjb
  have hspecI := sorted_tag_spec σ comments ti hmi
  have hspecJ := sorted_tag_spec σ comments tj hmj
  constructor
  · rcases hrel with h | ⟨h, _⟩
    · exact le_of_lt h
    · exact le_of_eq h.symm
  · intro hups
    have htag : ti.1 ≤ tj.1 := by
      rcases hrel with h | ⟨_, h⟩
      · omega
      · exact h
    rcases Nat.lt_or_ge ti.1 tj.1 with hlt | hge
    · refine firstContrib_mono comments _ _ hspecI.1 hspecJ.1 ?_
      have h1 : (dedupF (scanKeys comments)).indexOf ti.2.id <
          (dedupF (scanKeys comments)).indexOf tj.2.id := by
        rw [hspecI.2, hspecJ.2]
        exact hlt
      exact (dedupAux_indexOf_lt_iff [] _ _ _ hspecI.1 hspecJ.1 (by simp) (by simp)).1 h1
    · have heqtag : ti.1 = tj.1 := by omega
      have hmI : ti.2.id ∈ dedupF (scanKeys comments) :=
        (mem_dedupAux [] _ _).2 ⟨hspecI.1, by simp⟩
      have hmJ : tj.2.id ∈ dedupF (scanKeys comments) :=
        (mem_dedupAux [] _ _).2 ⟨hspecJ.1, by simp⟩
      have hideq : ti.2.id = tj.2.id := by
        refine (List.indexOf_inj hmI hmJ).1 ?_
        rw [hspecI.2, hspecJ.2, heqtag]
      rw [hideq]

/-- Witness for `claim_C6_output_ordering`: two comments with distinct keys,
the later one with higher ups, giving output positions 0 and 1 to compare. -/
theorem claim_C6_output_ordering_witness :
    (⟨"al_nassr:moneyline", "Community", "Al Nassr ML", "**alice:** Al Nassr ML",
        2, 0, ["alice"], ""⟩ : Card).ups ≤
      (⟨"ch_elsea:moneyline", "Community", "Ch elsea ML", "**bob:** Chelsea ML",
        7, 0, ["bob"], ""⟩ : Card).ups ∧
    ((⟨"ch_elsea:moneyline", "Community", "Ch elsea ML", "**bob:** Chelsea ML",
        7, 0, ["bob"], ""⟩ : Card).ups =
      (⟨"al_nassr:moneyline", "Community", "Al Nassr ML", "**alice:** Al Nassr ML",
        2, 0, ["alice"], ""⟩ : Card).ups →
      firstContribIdx
        [PComment.mk (some "a") "alice" "Al Nassr ML" "Al Nassr ML" "Al Nassr ML" 2 0 [],
         PComment.mk (some "b") "bob" "Chelsea ML" "Ch elsea ML" "Chelsea ML" 7 0 []]
        (⟨"ch_elsea:moneyline", "Community", "Ch elsea ML", "**bob:** Chelsea ML",
          7, 0, ["bob"], ""⟩ : Card).id ≤
      firstContribIdx
        [PComment.mk (some "a") "alice" "Al Nassr ML" "Al Nassr ML" "Al Nassr ML" 2 0 [],
         PComment.mk (some "b") "bob" "Chelsea ML" "Ch elsea ML" "Chelsea ML" 7 0 []]
        (⟨"al_nassr:moneyline", "Community", "Al Nassr ML", "**alice:** Al Nassr ML",
          2, 0, ["alice"], ""⟩ : Card).id) :=
  claim_C6_output_ordering (fun l => l)
    [PComment.mk (some "a") "alice" "Al Nassr ML" "Al Nassr ML" "Al Nassr ML" 2 0 [],
     PComment.mk (some "b") "bob" "Chelsea ML" "Ch elsea ML" "Chelsea ML" 7 0 []]
    0 1 _ _ (by decide) (by decide) (by decide)

/-- Dropping a satisfied prefix twice is the same as once. -/
theorem dropWhile_dropWhile (p : Char → Bool) (l : List Char) :
    (l.dropWhile p).dropWhile p = l.dropWhile p := by
  induction l with
  | nil => rfl
  | cons c cs ih =>
    by_cases h : p c
    · simp [List.dropWhile_cons, h, ih]
    · simp [List.dropWhile_cons, h]

/-- The head surviving a `dropWhile` fails the predicate. -/
theorem head?_dropWhile_not (p : Char → Bool) (l : List Char) (c : Char)
    (h : (l.dropWhile p).head? = some c) : p c = false := by
  induction l with
  | nil => simp at h
  | cons a as ih =>
    by_cases ha : p a
    · rw [show (a :: as).dropWhile p = as.dropWhile p from by
        simp [List.dropWhile_cons, ha]] at h
      exact ih h
    · rw [show (a :: as).dropWhile p = a :: as from by
        simp [List.dropWhile_cons, ha]] at h
      simp only [List.head?_cons, Option.some_inj] at h
      rw [← h]
      simpa using ha

/-- A list whose head (if any) fails the predicate is untouched by
`dropWhile`. -/
theorem dropWhile_eq_self_of_head (p : Char → Bool) (l : List Char)
    (h : ∀ c, l.head? = some c → p c = false) : l.dropWhile p = l := by
  cases l with
  | nil => rfl
  | cons a as => simp [List.dropWhile_cons, h a rfl]

/-- `dropWhile` keeps the last element (or empties the list). -/
theorem getLast?_dropWhile (p : Char → Bool) (l : List Char) :
    l.dropWhile p = [] ∨ (l.dropWhile p).getLast? = l.getLast? := by
  induction l with
  | nil => left; rfl
  | cons a as ih =>
    by_cases ha : p a
    · rw [show (a :: as).dropWhile p = as.dropWhile p from by
        simp [List.dropWhile_cons, ha]]
      by_cases hnil : as.dropWhile p = []
      · left; exact hnil
      · right
        rcases ih with h | h
        · exact absurd h hnil
        · rw [h]
          cases as with
          | nil => simp [List.dropWhile] at hnil
          | cons b bs => rw [List.getLast?_cons_cons]
    · right; rw [show (a :: as).dropWhile p = a :: as from by
        simp [List.dropWhile_cons, ha]]

/-- Python's `str.strip` is idempotent (character-list level). -/
theorem pyStripL_idem (cs : List Char) : pyStripL (pyStripL cs) = pyStripL cs := by
  have hstep1 : (pyStripL cs).dropWhile pyWS = pyStripL cs := by
    apply dropWhile_eq_self_of_head
    intro c hc
    unfold pyStripL at hc
    rw [List.head?_reverse] at hc
    rcases getLast?_dropWhile pyWS (cs.dropWhile pyWS).reverse with h | h
    · rw [h] at hc
      simp at hc
    · rw [h, List.getLast?_reverse] at hc
      exact head?_dropWhile_not pyWS cs c hc
  have h2 : (pyStripL cs).reverse = (cs.dropWhile pyWS).reverse.dropWhile pyWS := by
    unfold pyStripL
    rw [List.reverse_reverse]
  calc pyStripL (pyStripL cs)
      = (((pyStripL cs).dropWhile pyWS).reverse.dropWhile pyWS).reverse := rfl
    _ = ((pyStripL cs).reverse.dropWhile pyWS).reverse := by rw [hstep1]
    _ = (((cs.dropWhile pyWS).reverse.dropWhile pyWS).dropWhile pyWS).reverse := by rw [h2]
    _ = ((cs.dropWhile pyWS).reverse.dropWhile pyWS).reverse := by rw [dropWhile_dropWhile]
    _ = pyStripL cs := rfl

/-- Python's `str.strip` is idempotent. -/
theorem pyStrip_idem (s : String) : pyStrip (pyStrip s) = pyStrip s := by
  unfold pyStrip
  rw [show (String.mk (pyStripL s.data)).data = pyStripL s.data from rfl, pyStripL_idem]

/-- Every phrase emitted by the Segmenter is already stripped and nonempty
(both the primary and the fallback path strip and discard empties). -/
theorem extract_segments_stripped (line : String) :
    ∀ s ∈ extract_bet_segments line, pyStrip s = s ∧ s ≠ "" := by
  intro s hs
  have hraw : s ∈ rawSegs line := ((mem_dedupAux [] _ _).1 hs).1
  unfold rawSegs at hraw
  split at hraw
  · unfold fallbackSegs at hraw
    rcases List.mem_flatMap.1 hraw with ⟨pn, _, hmem⟩
    rcases List.mem_filter.1 hmem with ⟨hmem2, hne⟩
    rcases List.mem_map.1 hmem2 with ⟨m, _, rfl⟩
    exact ⟨pyStrip_idem _, by simpa using hne⟩
  · unfold primarySegs at hraw
    rcases List.mem_filterMap.1 hraw with ⟨p, _, hsome⟩
    split at hsome
    · rw [Option.some_inj] at hsome
      subst hsome
      refine ⟨pyStrip_idem _, by assumption⟩
    · exact absurd hsome (by simp)

/-- The head of a list is a member. -/
theorem head?_mem {α : Type} (l : List α) (a : α) (h : l.head? = some a) : a ∈ l := by
  cases l with
  | nil => simp at h
  | cons x xs =>
    simp only [List.head?_cons, Option.some_inj] at h
    exact h ▸ List.mem_cons_self _ _

/-- Every character captured by the matcher comes from the input (captures
are slices of it). -/
theorem mtch_caps_subset (input : List Char) (re : RE) :
    ∀ (pos : Nat) (cp : Caps), (∀ e ∈ cp, ∀ c ∈ e.2, c ∈ input) →
      ∀ r ∈ mtch input re pos cp, ∀ e ∈ r.2, ∀ c ∈ e.2, c ∈ input := by
  induction re with
  | eps =>
    intro pos cp hcp r hr
    simp only [mtch, List.mem_singleton] at hr
    subst hr
    exact hcp
  | cls p =>
    intro pos cp hcp r hr
    unfold mtch at hr
    split at hr
    · split at hr
      · simp only [List.mem_singleton] at hr
        subst hr
        exact hcp
      · simp at hr
    · simp at hr
  | lit s =>
    intro pos cp hcp r hr
    unfold mtch at hr
    split at hr
    · simp only [List.mem_singleton] at hr
      subst hr
      exact hcp
    · simp at hr
  | seq a b iha ihb =>
    intro pos cp hcp r hr
    unfold mtch at hr
    rcases List.mem_flatMap.1 hr with ⟨ec, hec, hrb⟩
    exact ihb ec.1 ec.2 (iha pos cp hcp ec hec) r hrb
  | alt a b iha ihb =>
    intro pos cp hcp r hr
    unfold mtch at hr
    rcases List.mem_append.1 hr with h | h
    · exact iha pos cp hcp r h
    · exact ihb pos cp hcp r h
  | opt a iha =>
    intro pos cp hcp r hr
    unfold mtch at hr
    rcases List.mem_append.1 hr with h | h
    · exact iha pos cp hcp r h
    · simp only [List.mem_singleton] at h
      subst h
      exact hcp
  | starG p =>
    intro pos cp hcp r hr
    unfold mtch at hr
    rcases List.mem_map.1 hr with ⟨k, _, rfl⟩
    exact hcp
  | plusG p =>
    intro pos cp hcp r hr
    unfold mtch at hr
    rcases List.mem_map.1 hr with ⟨k, _, rfl⟩
    exact hcp
  | plusL p =>
    intro pos cp hcp r hr
    unfold mtch at hr
    rcases List.mem_map.1 hr with ⟨k, _, rfl⟩
    exact hcp
  | grp n a iha =>
    intro pos cp hcp r hr
    unfold mtch at hr
    rcases List.mem_map.1 hr with ⟨ec, hec, rfl⟩
    intro e he c hc
    rcases List.mem_cons.1 he with rfl | he2
    · exact (List.drop_sublist _ _).subset ((List.take_sublist _ _).subset hc)
    · exact iha pos cp hcp ec hec e he2 c hc

/-- Every capture reported by the finditer scan is made of input
characters. -/
theorem finditerF_caps_subset (re : RE) (input : List Char) (fuel pos : Nat) :
    ∀ m ∈ finditerF re input fuel pos, ∀ e ∈ m.2.2, ∀ c ∈ e.2, c ∈ input := by
  induction fuel generalizing pos with
  | zero =>
    intro m hm
    simp [finditerF] at hm
  | succ fuel ih =>
    intro m hm
    unfold finditerF at hm
    split at hm
    · simp at hm
    · rcases hh : (mtch input re pos []).head? with _ | ec
      · rw [hh] at hm
        exact ih _ m hm
      · rw [hh] at hm
        rcases List.mem_cons.1 hm with rfl | hm2
        · intro e he
          exact mtch_caps_subset input re pos [] (by simp) ec (head?_mem _ _ hh) e he
        · exact ih _ m hm2

/-- The text of a (present or absent) group is made of input characters. -/
theorem grpStr_subset (input : List Char) (cp : Caps)
    (hcp : ∀ e ∈ cp, ∀ c ∈ e.2, c ∈ input) (n : Nat) :
    ∀ c ∈ (grpStr cp n).data, c ∈ input := by
  intro c hc
  unfold grpStr at hc
  rcases hf : cp.find? (fun e => e.1 = n) with _ | e
  · rw [hf] at hc
    simp at hc
  · rw [hf] at hc
    exact hcp e (List.mem_of_find?_eq_some hf) c hc

/-- Characters of a separator-join come from the separator or a token. -/
theorem mem_joinSepL (sep : Char) (ls : List (List Char)) (c : Char)
    (h : c ∈ joinSepL sep ls) : c = sep ∨ ∃ t ∈ ls, c ∈ t := by
  induction ls with
  | nil => simp [joinSepL] at h
  | cons t ts ih =>
    cases ts with
    | nil =>
      right
      exact ⟨t, by simp, by simpa [joinSepL] using h⟩
    | cons t2 ts2 =>
      rw [show joinSepL sep (t :: t2 :: ts2) = t ++ sep :: joinSepL sep (t2 :: ts2) from
        rfl] at h
      rcases List.mem_append.1 h with h1 | h1
      · right
        exact ⟨t, by simp, h1⟩
      · rcases List.mem_cons.1 h1 with rfl | h2
        · left; rfl
        · rcases ih h2 with h3 | ⟨u, hu, hcu⟩
          · left; exact h3
          · right
            exact ⟨u, List.mem_cons_of_mem _ hu, hcu⟩

/-- Stripping only removes characters. -/
theorem mem_pyStripL (l : List Char) (c : Char) (h : c ∈ pyStripL l) : c ∈ l := by
  unfold pyStripL at h
  rw [List.mem_reverse] at h
  have h2 := (List.dropWhile_sublist pyWS).subset h
  rw [List.mem_reverse] at h2
  exact (List.dropWhile_sublist pyWS).subset h2

/-- A phrase assembled from a combined-pattern match over a newline-free
input contains no newline (its pieces are input slices and the glue strings
" vs ", " - ", " @ ", " "). -/
theorem pickOfMatch_no_nl (input : List Char) (m : Nat × Nat × Caps)
    (hm : ∀ e ∈ m.2.2, ∀ c ∈ e.2, c ∈ input) (hin : '\n' ∉ input) :
    '\n' ∉ (pickOfMatch m).data := by
  have hg : ∀ k, '\n' ∉ (pyStrip (grpStr m.2.2 k)).data := fun k hc =>
    hin (grpStr_subset input m.2.2 hm k '\n' (mem_pyStripL _ '\n' hc))
  intro hc
  simp only [pickOfMatch] at hc
  split at hc <;> [skip; skip] <;>
    (try split at hc) <;> (try split at hc) <;>
    (try simp only [String.data_append, List.mem_append] at hc) <;>
    (repeat rcases hc with hc | hc) <;>
    first
      | exact hg _ hc
      | exact absurd hc (by decide)

/-- A fallback-pattern segment over a newline-free input contains no
newline. -/
theorem fbSeg_no_nl (input : List Char) (n : Nat) (m : Nat × Nat × Caps)
    (hm : ∀ e ∈ m.2.2, ∀ c ∈ e.2, c ∈ input) (hin : '\n' ∉ input) :
    '\n' ∉ (fbSeg n m).data := by
  intro hc
  unfold fbSeg at hc
  have h2 := mem_pyStripL _ _ hc
  rcases mem_joinSepL _ _ _ h2 with h3 | ⟨t, ht, hct⟩
  · exact absurd h3 (by decide)
  · rcases List.mem_map.1 ht with ⟨g, hg2, rfl⟩
    have hg3 := List.mem_of_mem_filter hg2
    rcases List.mem_map.1 hg3 with ⟨i, _, rfl⟩
    exact hin (grpStr_subset input m.2.2 hm _ '\n' hct)

/-- Segments extracted from a newline-free line are newline-free. -/
theorem extract_segments_no_nl (line : String) (hln : '\n' ∉ line.data) :
    ∀ s ∈ extract_bet_segments line, '\n' ∉ s.data := by
  intro s hs
  have hraw : s ∈ rawSegs line := ((mem_dedupAux [] _ _).1 hs).1
  unfold rawSegs at hraw
  split at hraw
  · unfold fallbackSegs at hraw
    rcases List.mem_flatMap.1 hraw with ⟨pn, _, hmem⟩
    rcases List.mem_filter.1 hmem with ⟨hmem2, _⟩
    rcases List.mem_map.1 hmem2 with ⟨m, hm, rfl⟩
    exact fbSeg_no_nl line.data pn.2 m
      (finditerF_caps_subset pn.1 line.data _ _ m hm) hln
  · unfold primarySegs at hraw
    rcases List.mem_filterMap.1 hraw with ⟨p, hp, hsome⟩
    rcases List.mem_map.1 hp with ⟨m, hm, rfl⟩
    split at hsome
    · rw [Option.some_inj] at hsome
      subst hsome
      intro hc
      exact pickOfMatch_no_nl line.data m
        (finditerF_caps_subset combinedRE line.data _ _ m hm) hln
        (mem_pyStripL _ _ hc)
    · exact absurd hsome (by simp)

/-- Pieces of a character split never contain the split character. -/
theorem splitChAux_no_ch (c : Char) (acc l : List Char) (hacc : c ∉ acc) :
    ∀ t ∈ splitChAux c acc l, c ∉ t := by
  induction l generalizing acc with
  | nil =>
    intro t ht
    simp only [splitChAux, List.mem_singleton] at ht
    subst ht
    simpa using hacc
  | cons x xs ih =>
    intro t ht
    by_cases hx : x = c
    · subst hx
      rw [show splitChAux x acc (x :: xs) = acc.reverse :: splitChAux x [] xs from by
        simp [splitChAux]] at ht
      rcases List.mem_cons.1 ht with rfl | ht2
      · simpa using hacc
      · exact ih [] (by simp) t ht2
    · rw [show splitChAux c acc (x :: xs) = splitChAux c (x :: acc) xs from by
        simp [splitChAux, hx]] at ht
      refine ih (x :: acc) ?_ t ht
      simp only [List.mem_cons, not_or]
      exact ⟨fun h => hx h.symm, hacc⟩

/-- Lines of `body.split('\n')` are newline-free. -/
theorem splitNl_no_nl (body : String) : ∀ s ∈ splitNl body, '\n' ∉ s.data := by
  intro s hs
  unfold splitNl at hs
  rcases List.mem_map.1 hs with ⟨t, ht, rfl⟩
  exact splitChAux_no_ch '\n' [] body.data (by simp) t ht

/-- Splitting consumes a separator-free token into the accumulator. -/
theorem splitChAux_append (c : Char) (t : List Char) (hne : c ∉ t) :
    ∀ (acc l : List Char), splitChAux c acc (t ++ l) = splitChAux c (t.reverse ++ acc) l := by
  induction t with
  | nil =>
    intro acc l
    simp
  | cons x xs ih =>
    intro acc l
    have hx : x ≠ c := fun h => hne (h ▸ List.mem_cons_self _ _)
    have hxs : c ∉ xs := fun h => hne (List.mem_cons_of_mem _ h)
    rw [List.cons_append, show splitChAux c acc (x :: (xs ++ l)) =
      splitChAux c (x :: acc) (xs ++ l) from by simp [splitChAux, hx],
      ih hxs (x :: acc) l]
    congr 1
    simp

/-- Splitting on `c` undoes joining with `c` when no token contains `c`. -/
theorem splitChAux_joinSepL (c : Char) (ls : List (List Char)) (hne : ls ≠ [])
    (h : ∀ t ∈ ls, c ∉ t) : splitChAux c [] (joinSepL c ls) = ls := by
  induction ls with
  | nil => exact absurd rfl hne
  | cons t ts ih =>
    cases ts with
    | nil =>
      have h2 := splitChAux_append c t (h t (by simp)) [] []
      rw [List.append_nil] at h2
      rw [show joinSepL c [t] = t from rfl, h2]
      simp [splitChAux]
    | cons t2 ts2 =>
      rw [show joinSepL c (t :: t2 :: ts2) = t ++ (c :: joinSepL c (t2 :: ts2)) from rfl,
        splitChAux_append c t (h t (by simp)) [] _,
        show splitChAux c (t.reverse ++ []) (c :: joinSepL c (t2 :: ts2)) =
          (t.reverse ++ []).reverse :: splitChAux c [] (joinSepL c (t2 :: ts2)) from by
          simp [splitChAux],
        ih (by simp) (fun u hu => h u (List.mem_cons_of_mem _ hu))]
      simp

/-- Rebuilding strings from their character data is the identity. -/
theorem map_mk_data : ∀ ls : List String, (ls.map String.data).map String.mk = ls
  | [] => rfl
  | s :: ss => by rw [List.map_cons, List.map_cons, map_mk_data ss]

/-- Splitting on newlines undoes the newline join of a nonempty list of
newline-free strings. -/
theorem splitNl_joinNl (ls : List String) (hne : ls ≠ [])
    (h : ∀ t ∈ ls, '\n' ∉ t.data) : splitNl (joinNl ls) = ls := by
  unfold splitNl joinNl
  rw [show (String.mk (joinSepL '\n' (ls.map String.data))).data =
      joinSepL '\n' (ls.map String.data) from rfl,
    splitChAux_joinSepL '\n' (ls.map String.data) (by simpa using hne)
      (fun t ht => by
        rcases List.mem_map.1 ht with ⟨u, hu, rfl⟩
        exact h u hu),
    map_mk_data]

/-- A newline join of a nonempty list of nonempty strings is nonempty. -/
theorem joinNl_ne_empty (ls : List String) (hne : ls ≠ []) (h : ∀ t ∈ ls, t ≠ "") :
    joinNl ls ≠ "" := by
  cases ls with
  | nil => exact absurd rfl hne
  | cons t ts =>
    intro he
    have hd : (joinNl (t :: ts)).data = [] := by rw [he]
    unfold joinNl at hd
    cases ts with
    | nil =>
      have ht : t.data = [] := hd
      have : t = "" := by
        cases t with
        | mk d =>
          rw [show (String.mk d).data = d from rfl] at ht
          rw [ht]
      exact h t (by simp) this
    | cons t2 ts2 =>
      rw [show (t :: t2 :: ts2).map String.data =
        t.data :: (t2 :: ts2).map String.data from rfl,
        show joinSepL '\n' (t.data :: (t2 :: ts2).map String.data) =
          t.data ++ '\n' :: joinSepL '\n' ((t2 :: ts2).map String.data) from by
          cases ts2 <;> rfl] at hd
      simp at hd

/-- The deduplicated phrase list extracted from a comment body (what
`extract_picks_and_notes` newline-joins into the `picks` field). -/
def bodyPhrases (body : String) : List String :=
  dedupF ((((splitNl body).map pyStrip).filter (fun l => l ≠ "")).flatMap
    extract_bet_segments)

/-- The empty body yields no phrases. -/
theorem bodyPhrases_empty : bodyPhrases "" = [] := by decide

/-- The `picks` field is exactly the newline join of the phrase list. -/
theorem extract_picks_eq (body : String) (hb : body ≠ "") :
    (extract_picks_and_notes body).1 = joinNl (bodyPhrases body) := by
  unfold extract_picks_and_notes bodyPhrases
  rw [if_neg hb]

/-- Every extracted phrase is stripped, nonempty and newline-free. -/
theorem phrases_props (body : String) :
    ∀ p ∈ bodyPhrases body, pyStrip p = p ∧ p ≠ "" ∧ '\n' ∉ p.data := by
  intro p hp
  unfold bodyPhrases at hp
  have hp2 := ((mem_dedupAux [] _ _).1 hp).1
  rcases List.mem_flatMap.1 hp2 with ⟨line, hline, hpl⟩
  have hline2 := List.mem_of_mem_filter hline
  rcases List.mem_map.1 hline2 with ⟨rawline, hraw, rfl⟩
  have hnl : '\n' ∉ (pyStrip rawline).data := fun hc =>
    splitNl_no_nl body rawline hraw (mem_pyStripL _ _ hc)
  obtain ⟨h1, h2⟩ := extract_segments_stripped _ p hpl
  exact ⟨h1, h2, extract_segments_no_nl _ hnl p hpl⟩

/-- Mapping a function that fixes every element is the identity. -/
theorem map_eq_self_of {α : Type} (f : α → α) (l : List α) (h : ∀ a ∈ l, f a = a) :
    l.map f = l := by
  induction l with
  | nil => rfl
  | cons x xs ih =>
    rw [List.map_cons, h x (by simp), ih (fun a ha => h a (List.mem_cons_of_mem _ ha))]

/-- Splitting a comment's `picks` field recovers exactly the phrase list. -/
theorem individualPicks_joinNl (phr : List String) (hne : phr ≠ [])
    (hprops : ∀ p ∈ phr, pyStrip p = p ∧ p ≠ "" ∧ '\n' ∉ p.data)
    (c : PComment) (hp : c.picks = joinNl phr) :
    individualPicks c = phr := by
  unfold individualPicks
  rw [hp, splitNl_joinNl phr hne (fun t ht => (hprops t ht).2.2),
    map_eq_self_of pyStrip phr (fun p hp2 => (hprops p hp2).1)]
  rw [List.filter_eq_self.2 (fun p hp2 => by simpa using (hprops p hp2).2.1)]

/-- Contributor list recorded for a key ([] when the key is absent). -/
def contribOf (bs : List (String × Bucket)) (k : String) : List String :=
  ((lookupB bs k).getD emptyBucket).contributors

/-- An upsert with `bucketAdd` never removes a recorded contributor. -/
theorem contrib_mono_upsert (bs : List (String × Bucket)) (k k' : String) (a : String)
    (c : PComment) (p : String) (h : a ∈ contribOf bs k) :
    a ∈ contribOf (upsert k' (bucketAdd c p) bs) k := by
  by_cases he : k = k'
  · subst he
    unfold contribOf at h ⊢
    rw [lookupB_upsert_self]
    simp only [Option.getD_some]
    simp only [bucketAdd, List.mem_append]
    exact Or.inl h
  · unfold contribOf at h ⊢
    rw [lookupB_upsert_ne _ _ he]
    exact h

/-- After a comment's phrases are accumulated, its author is recorded under
every key one of those phrases canonicalizes to. -/
theorem author_mem_contrib_foldl (c : PComment) (k : String) (ps : List String)
    (bs : List (String × Bucket))
    (h : (∃ p ∈ ps, normalize_pick p = k) ∨ c.author ∈ contribOf bs k) :
    c.author ∈ contribOf
      (ps.foldl (fun bs p => upsert (normalize_pick p) (bucketAdd c p) bs) bs) k := by
  induction ps generalizing bs with
  | nil =>
    rcases h with ⟨p, hp, _⟩ | h
    · simp at hp
    · simpa using h
  | cons p pr ih =>
    rw [List.foldl_cons]
    apply ih
    rcases h with ⟨q, hq, hqk⟩ | h
    · rcases List.mem_cons.1 hq with rfl | hq2
      · right
        subst hqk
        unfold contribOf
        rw [lookupB_upsert_self]
        simp [bucketAdd]
      · left
        exact ⟨q, hq2, hqk⟩
    · right
      exact contrib_mono_upsert bs k (normalize_pick p) c.author c p h

/-- Later comments never remove a recorded contributor. -/
theorem contrib_mono_processComment (bs : List (String × Bucket)) (c : PComment)
    (k a : String) (h : a ∈ contribOf bs k) :
    a ∈ contribOf (processComment bs c) k := by
  unfold processComment
  generalize individualPicks c = ps
  induction ps generalizing bs with
  | nil => simpa using h
  | cons p pr ih =>
    rw [List.foldl_cons]
    exact ih _ (contrib_mono_upsert bs k (normalize_pick p) a c p h)

/-- Scanning further comments never removes a recorded contributor. -/
theorem contrib_mono_comments (comments : List PComment) (bs : List (String × Bucket))
    (k a : String) (h : a ∈ contribOf bs k) :
    a ∈ contribOf (comments.foldl processComment bs) k := by
  induction comments generalizing bs with
  | nil => simpa using h
  | cons c cs ih =>
    rw [List.foldl_cons]
    exact ih _ (contrib_mono_processComment bs c k a h)

/-- Every pick occurrence of every comment yields an output card under its
canonical key carrying the comment's author among the contributors. -/
theorem exists_card_of_pick (σ : List String → List String) (comments : List PComment)
    (c : PComment) (hc : c ∈ comments) (p : String) (hp : p ∈ individualPicks c) :
    ∃ card ∈ aggregate_picks_by_votes σ comments,
      card.id = normalize_pick p ∧ c.author ∈ card.contributors := by
  rcases List.append_of_mem hc with ⟨l1, l2, rfl⟩
  have hauthor : c.author ∈
      contribOf ((l1 ++ c :: l2).foldl processComment []) (normalize_pick p) := by
    rw [List.foldl_append, List.foldl_cons]
    apply contrib_mono_comments
    unfold processComment
    exact author_mem_contrib_foldl c _ (individualPicks c) _ (Or.inl ⟨p, hp, rfl⟩)
  unfold contribOf at hauthor
  rcases hf : ((l1 ++ c :: l2).foldl processComment []).find?
      (fun kb => kb.1 = normalize_pick p) with _ | kb
  · rw [show lookupB ((l1 ++ c :: l2).foldl processComment []) (normalize_pick p) =
      none from by unfold lookupB; rw [hf]; rfl] at hauthor
    simp [emptyBucket] at hauthor
  · rw [show lookupB ((l1 ++ c :: l2).foldl processComment []) (normalize_pick p) =
      some kb.2 from by unfold lookupB; rw [hf]; rfl] at hauthor
    simp only [Option.getD_some] at hauthor
    have hkmem := List.mem_of_find?_eq_some hf
    have hkeq : kb.1 = normalize_pick p := by simpa using List.find?_some hf
    refine ⟨finalizeCard σ kb, (mem_aggregate_iff σ _ _).2 ⟨kb, hkmem, rfl⟩, hkeq, ?_⟩
    exact hauthor

/-- Unfolding of the parse loop over one child. -/
theorem parseListingF_succ_cons (fuel : Nat) (n : RTree) (rest : List RTree) :
    parseListingF (fuel + 1) (n :: rest) =
      (match parseNodeAux n (parseListingF fuel) with
       | some c => c :: parseListingF (fuel + 1) rest
       | none => parseListingF (fuel + 1) rest) := rfl

/-- A `t1` child whose body yields picks is parsed into the expected dict. -/
theorem parseNodeAux_t1 (idv authorv bodyv : Option String) (upsv downsv : Option Int)
    (repliesv : Option (List RTree)) (pr : List RTree → List PComment)
    (hpick : (extract_picks_and_notes (bodyv.getD "")).1 ≠ "") :
    parseNodeAux (RTree.mk (some "t1") idv authorv bodyv upsv downsv repliesv) pr =
      some (PComment.mk idv (authorOrDeleted authorv) (bodyv.getD "")
        (extract_picks_and_notes (bodyv.getD "")).1
        (extract_picks_and_notes (bodyv.getD "")).2 (upsv.getD 0) (downsv.getD 0)
        (match repliesv with
         | some l => pr l
         | none => [])) := by
  simp [parseNodeAux, hpick]

/-- A top-level `t1` node with picks appears in the parsed comment list with
its author, picks, ups, downs and notes fields intact. -/
theorem parse_keeps_node (fuel : Nat) (raws : List RTree) (idv authorv : Option String)
    (bodyv : Option String) (upsv downsv : Option Int) (repliesv : Option (List RTree))
    (hn : RTree.mk (some "t1") idv authorv bodyv upsv downsv repliesv ∈ raws)
    (hpick : (extract_picks_and_notes (bodyv.getD "")).1 ≠ "") :
    ∃ c ∈ parseListingF (fuel + 1) raws,
      c.author = authorOrDeleted authorv ∧
      c.picks = (extract_picks_and_notes (bodyv.getD "")).1 ∧
      c.ups = upsv.getD 0 ∧
      c.downs = downsv.getD 0 ∧
      c.notes = (extract_picks_and_notes (bodyv.getD "")).2 := by
  induction raws with
  | nil => simp at hn
  | cons n rest ih =>
    rcases List.mem_cons.1 hn with rfl | hn2
    · rw [parseListingF_succ_cons,
        parseNodeAux_t1 idv authorv bodyv upsv downsv repliesv _ hpick]
      exact ⟨_, List.mem_cons_self _ _, rfl, rfl, rfl, rfl, rfl⟩
    · rcases ih hn2 with ⟨c, hcm, hrest⟩
      rw [parseListingF_succ_cons]
      rcases parseNodeAux n (parseListingF fuel) with _ | c0
      · exact ⟨c, hcm, hrest⟩
      · exact ⟨c, List.mem_cons_of_mem _ hcm, hrest⟩

/-- Every parsed comment got its picks field from `extract_picks_and_notes`
on some body. -/
theorem parse_inversion (fuel : Nat) (raws : List RTree) (c : PComment)
    (hc : c ∈ parseListingF fuel raws) :
    ∃ b : String, c.picks = (extract_picks_and_notes b).1 := by
  cases fuel with
  | zero => simp [parseListingF] at hc
  | succ fuel =>
    induction raws with
    | nil => simp [parseListingF] at hc
    | cons n rest ih =>
      rw [parseListingF_succ_cons] at hc
      rcases hn : parseNodeAux n (parseListingF fuel) with _ | c0
      · rw [hn] at hc
        exact ih hc
      · rw [hn] at hc
        rcases List.mem_cons.1 hc with rfl | hc2
        · cases n with
          | mk kind idv authorv bodyv upsv downsv repliesv =>
            simp only [parseNodeAux] at hn
            split at hn
            · exact absurd hn (by simp)
            · split at hn
              · exact absurd hn (by simp)
              · rw [Option.some_inj] at hn
                refine ⟨bodyv.getD "", ?_⟩
                rw [← hn]
                rfl
        · exact ih hc2

/-- Every comment kept by `_parse_listing` has a nonempty `picks` field. -/
theorem picks_ne_of_mem_parse (fuel : Nat) (raws : List RTree) (c : PComment)
    (hc : c ∈ parseListingF fuel raws) : c.picks ≠ "" := by
  cases fuel with
  | zero => simp [parseListingF] at hc
  | succ fuel =>
    induction raws with
    | nil => simp [parseListingF] at hc
    | cons n rest ih =>
      simp only [parseListingF, List.foldr_cons] at hc ih
      rcases hn : parseNodeAux n (parseListingF fuel) with _ | c0
      · rw [hn] at hc
        exact ih hc
      · rw [hn] at hc
        rw [List.mem_cons] at hc
        rcases hc with rfl | hc
        · cases n with
          | mk kind idv authorv bodyv upsv downsv repliesv =>
            simp only [parseNodeAux] at hn
            split at hn
            · exact absurd hn (by simp)
            · split at hn
              · exact absurd hn (by simp)
              · rename_i hpn
                rw [Option.some_inj] at hn
                rw [← hn]
                simpa [PComment.picks] using hpn
        · exact ih hc

/-- Every parsed comment carries at least one pick phrase after splitting. -/
theorem individualPicks_parsed_ne_nil (fuel : Nat) (raws : List RTree) (c : PComment)
    (hc : c ∈ parseListingF fuel raws) : individualPicks c ≠ [] := by
  rcases parse_inversion fuel raws c hc with ⟨b, hb⟩
  have hpicks : c.picks ≠ "" := picks_ne_of_mem_parse fuel raws c hc
  by_cases hbe : b = ""
  · subst hbe
    rw [show (extract_picks_and_notes "").1 = "" from rfl] at hb
    exact absurd hb hpicks
  · have h1 : c.picks = joinNl (bodyPhrases b) := hb.trans (extract_picks_eq b hbe)
    have hphne : bodyPhrases b ≠ [] := by
      intro h0
      rw [h0] at h1
      exact hpicks h1
    rw [individualPicks_joinNl (bodyPhrases b) hphne (phrases_props b) c h1]
    exact hphne

/-- Total downs recorded for a key (0 when the key is absent). -/
def downsTotal (bs : List (String × Bucket)) (k : String) : Int :=
  ((lookupB bs k).getD emptyBucket).total_downs

/-- Accumulating a batch of phrases adds (number of phrases keyed `k`) times
the comment's downs to key `k`. -/
theorem downsTotal_foldl_picks (c : PComment) (k : String) (ps : List String)
    (bs : List (String × Bucket)) :
    downsTotal (ps.foldl (fun bs p => upsert (normalize_pick p) (bucketAdd c p) bs) bs) k =
      downsTotal bs k + ((ps.map normalize_pick).count k : Int) * c.downs := by
  induction ps generalizing bs with
  | nil => simp
  | cons p pr ih =>
    rw [List.foldl_cons, ih]
    by_cases h : normalize_pick p = k
    · subst h
      rw [show downsTotal (upsert (normalize_pick p) (bucketAdd c p) bs) (normalize_pick p) =
          downsTotal bs (normalize_pick p) + c.downs from by
        unfold downsTotal
        rw [lookupB_upsert_self]
        simp [bucketAdd]]
      rw [List.map_cons, List.count_cons]
      simp only [beq_self_eq_true, if_true]
      push_cast
      ring
    · rw [show downsTotal (upsert (normalize_pick p) (bucketAdd c p) bs) k =
          downsTotal bs k from by
        unfold downsTotal
        rw [lookupB_upsert_ne _ _ (Ne.symm h)]]
      rw [List.map_cons, List.count_cons]
      simp [h]

/-- Accumulating one comment adds `countKey k c * c.downs` to key `k`. -/
theorem downsTotal_processComment (bs : List (String × Bucket)) (c : PComment)
    (k : String) :
    downsTotal (processComment bs c) k = downsTotal bs k + (countKey k c : Int) * c.downs :=
  downsTotal_foldl_picks c k (individualPicks c) bs

/-- Scanning a comment list adds each comment's keyed downs contribution. -/
theorem downsTotal_foldl_comments (comments : List PComment) (bs : List (String × Bucket))
    (k : String) :
    downsTotal (comments.foldl processComment bs) k =
      downsTotal bs k + (comments.map (fun c => (countKey k c : Int) * c.downs)).sum := by
  induction comments generalizing bs with
  | nil => simp
  | cons c cs ih =>
    rw [List.foldl_cons, ih, downsTotal_processComment]
    simp only [List.map_cons, List.sum_cons]
    ring

/-- Attributed note blocks recorded for a key ([] when the key is absent). -/
def notesOf (bs : List (String × Bucket)) (k : String) : List String :=
  ((lookupB bs k).getD emptyBucket).notes

/-- An upsert with `bucketAdd` never removes a recorded note block. -/
theorem notes_mono_upsert (bs : List (String × Bucket)) (k k' : String) (a : String)
    (c : PComment) (p : String) (h : a ∈ notesOf bs k) :
    a ∈ notesOf (upsert k' (bucketAdd c p) bs) k := by
  by_cases he : k = k'
  · subst he
    unfold notesOf at h ⊢
    rw [lookupB_upsert_self]
    simp only [Option.getD_some]
    simp only [bucketAdd]
    split
    · exact List.mem_append.2 (Or.inl h)
    · exact h
  · unfold notesOf at h ⊢
    rw [lookupB_upsert_ne _ _ he]
    exact h

/-- After a comment with nonempty notes is accumulated, its attributed note
block is recorded under every key one of its phrases canonicalizes to. -/
theorem noteBlock_mem_foldl (c : PComment) (k : String) (ps : List String)
    (bs : List (String × Bucket)) (hn : c.notes ≠ "")
    (h : (∃ p ∈ ps, normalize_pick p = k) ∨
      ("**" ++ c.author ++ ":** " ++ c.notes) ∈ notesOf bs k) :
    ("**" ++ c.author ++ ":** " ++ c.notes) ∈ notesOf
      (ps.foldl (fun bs p => upsert (normalize_pick p) (bucketAdd c p) bs) bs) k := by
  induction ps generalizing bs with
  | nil =>
    rcases h with ⟨p, hp, _⟩ | h
    · simp at hp
    · simpa using h
  | cons p pr ih =>
    rw [List.foldl_cons]
    apply ih
    rcases h with ⟨q, hq, hqk⟩ | h
    · rcases List.mem_cons.1 hq with rfl | hq2
      · right
        subst hqk
        unfold notesOf
        rw [lookupB_upsert_self]
        simp [bucketAdd, hn]
      · left
        exact ⟨q, hq2, hqk⟩
    · right
      exact notes_mono_upsert bs k (normalize_pick p) _ c p h

/-- Later comments never remove a recorded note block. -/
theorem notes_mono_processComment (bs : List (String × Bucket)) (c : PComment)
    (k a : String) (h : a ∈ notesOf bs k) :
    a ∈ notesOf (processComment bs c) k := by
  unfold processComment
  generalize individualPicks c = ps
  induction ps generalizing bs with
  | nil => simpa using h
  | cons p pr ih =>
    rw [List.foldl_cons]
    exact ih _ (notes_mono_upsert bs k (normalize_pick p) a c p h)

/-- Scanning further comments never removes a recorded note block. -/
theorem notes_mono_comments (comments : List PComment) (bs : List (String × Bucket))
    (k a : String) (h : a ∈ notesOf bs k) :
    a ∈ notesOf (comments.foldl processComment bs) k := by
  induction comments generalizing bs with
  | nil => simpa using h
  | cons c cs ih =>
    rw [List.foldl_cons]
    exact ih _ (notes_mono_processComment bs c k a h)

/-- Every pick occurrence yields a table entry — hence an output card — under
its canonical key that carries the comment's full contribution: its author
among the contributors, its (positively-counted) ups and downs inside the
per-key vote sums, and, when the comment has notes, its attributed note
block among the recorded note blocks. -/
theorem exists_card_full (σ : List String → List String) (comments : List PComment)
    (c : PComment) (hc : c ∈ comments) (p : String) (hp : p ∈ individualPicks c) :
    ∃ kb ∈ comments.foldl processComment [],
      kb.1 = normalize_pick p ∧
      finalizeCard σ kb ∈ aggregate_picks_by_votes σ comments ∧
      c.author ∈ kb.2.contributors ∧
      kb.2.total_ups =
        (comments.map (fun d => (countKey (normalize_pick p) d : Int) * d.ups)).sum ∧
      kb.2.total_downs =
        (comments.map (fun d => (countKey (normalize_pick p) d : Int) * d.downs)).sum ∧
      1 ≤ countKey (normalize_pick p) c ∧
      (c.notes ≠ "" → ("**" ++ c.author ++ ":** " ++ c.notes) ∈ kb.2.notes) := by
  have hcount : 1 ≤ countKey (normalize_pick p) c := by
    have : normalize_pick p ∈ commentKeys c := List.mem_map_of_mem _ hp
    exact List.count_pos_iff.2 this
  rcases List.append_of_mem hc with ⟨l1, l2, rfl⟩
  have hauthor : c.author ∈
      contribOf ((l1 ++ c :: l2).foldl processComment []) (normalize_pick p) := by
    rw [List.foldl_append, List.foldl_cons]
    apply contrib_mono_comments
    unfold processComment
    exact author_mem_contrib_foldl c _ (individualPicks c) _ (Or.inl ⟨p, hp, rfl⟩)
  have hnote : c.notes ≠ "" → ("**" ++ c.author ++ ":** " ++ c.notes) ∈
      notesOf ((l1 ++ c :: l2).foldl processComment []) (normalize_pick p) := by
    intro hn
    rw [List.foldl_append, List.foldl_cons]
    apply notes_mono_comments
    unfold processComment
    exact noteBlock_mem_foldl c _ (individualPicks c) _ hn (Or.inl ⟨p, hp, rfl⟩)
  unfold contribOf at hauthor
  unfold notesOf at hnote
  rcases hf : ((l1 ++ c :: l2).foldl processComment []).find?
      (fun kb => kb.1 = normalize_pick p) with _ | kb
  · rw [show lookupB ((l1 ++ c :: l2).foldl processComment []) (normalize_pick p) =
      none from by unfold lookupB; rw [hf]; rfl] at hauthor
    simp [emptyBucket] at hauthor
  · have hlook : lookupB ((l1 ++ c :: l2).foldl processComment []) (normalize_pick p) =
        some kb.2 := by
      unfold lookupB
      rw [hf]
      rfl
    have hkmem := List.mem_of_find?_eq_some hf
    have hkeq : kb.1 = normalize_pick p := by simpa using List.find?_some hf
    have hups : kb.2.total_ups =
        ((l1 ++ c :: l2).map
          (fun d => (countKey (normalize_pick p) d : Int) * d.ups)).sum := by
      have h1 := upsTotal_foldl_comments (l1 ++ c :: l2) [] (normalize_pick p)
      rw [show upsTotal ((l1 ++ c :: l2).foldl processComment []) (normalize_pick p) =
        kb.2.total_ups from by unfold upsTotal; rw [hlook]; rfl] at h1
      simpa [upsTotal, lookupB, emptyBucket] using h1
    have hdowns : kb.2.total_downs =
        ((l1 ++ c :: l2).map
          (fun d => (countKey (normalize_pick p) d : Int) * d.downs)).sum := by
      have h1 := downsTotal_foldl_comments (l1 ++ c :: l2) [] (normalize_pick p)
      rw [show downsTotal ((l1 ++ c :: l2).foldl processComment []) (normalize_pick p) =
        kb.2.total_downs from by unfold downsTotal; rw [hlook]; rfl] at h1
      simpa [downsTotal, lookupB, emptyBucket] using h1
    rw [hlook] at hauthor hnote
    simp only [Option.getD_some] at hauthor hnote
    exact ⟨kb, hkmem, hkeq, (mem_aggregate_iff σ _ _).2 ⟨kb, hkmem, rfl⟩, hauthor, hups,
      hdowns, hcount, hnote⟩

/-- The parsed comment with its nested reply list removed: exactly the
fields the Aggregator reads. -/
def stripReplies : PComment → PComment
  | .mk idv author body picks notes ups downs _ =>
    .mk idv author body picks notes ups downs []

/-- A source node with its nested reply subtree deleted. -/
def pruneNode : RTree → RTree
  | .mk kind idv authorv bodyv upsv downsv _ =>
    .mk kind idv authorv bodyv upsv downsv none

/-- The accumulation step reads none of a comment's replies. -/
theorem processComment_ext (bs : List (String × Bucket)) (c c' : PComment)
    (h : stripReplies c = stripReplies c') : processComment bs c = processComment bs c' := by
  cases c with
  | mk i a b p n u d r =>
    cases c' with
    | mk i' a' b' p' n' u' d' r' =>
      simp only [stripReplies, PComment.mk.injEq] at h
      obtain ⟨h1, h2, h3, h4, h5, h6, h7, -⟩ := h
      subst h1
      subst h2
      subst h3
      subst h4
      subst h5
      subst h6
      subst h7
      rfl

/-- The whole scan reads none of the comments' replies. -/
theorem foldl_processComment_ext : ∀ (cs cs' : List PComment),
    cs.map stripReplies = cs'.map stripReplies →
    ∀ bs, cs.foldl processComment bs = cs'.foldl processComment bs := by
  intro cs
  induction cs with
  | nil =>
    intro cs' h bs
    cases cs' with
    | nil => rfl
    | cons c2 cr2 => simp at h
  | cons c cr ih =>
    intro cs' h bs
    cases cs' with
    | nil => simp at h
    | cons c2 cr2 =>
      simp only [List.map_cons, List.cons.injEq] at h
      rw [List.foldl_cons, List.foldl_cons, processComment_ext bs c c2 h.1, ih cr2 h.2]

/-- Aggregation is invariant under any change to the `replies` fields of its
input comments: nested parsed replies are entirely omitted from it. -/
theorem aggregate_of_strip_eq (σ : List String → List String) (cs cs' : List PComment)
    (h : cs.map stripReplies = cs'.map stripReplies) :
    aggregate_picks_by_votes σ cs = aggregate_picks_by_votes σ cs' := by
  unfold aggregate_picks_by_votes
  rw [foldl_processComment_ext cs cs' h []]

/-- Up to the (unread) replies field, parsing a node with its reply subtree
deleted gives the same parsed comment. -/
theorem parseNodeAux_prune (n : RTree) (pr pr' : List RTree → List PComment) :
    Option.map stripReplies (parseNodeAux (pruneNode n) pr') =
      Option.map stripReplies (parseNodeAux n pr) := by
  cases n with
  | mk kind idv authorv bodyv upsv downsv repliesv =>
    by_cases hk : kind ≠ some "t1"
    · simp [pruneNode, parseNodeAux, hk]
    · by_cases hp : (extract_picks_and_notes (bodyv.getD "")).1 = ""
      · simp [pruneNode, parseNodeAux, hk, hp]
      · simp only [pruneNode, parseNodeAux, if_neg hk, if_neg hp]
        cases repliesv <;> simp [stripReplies]

/-- Up to the (unread) replies fields, the parsed top-level comments of a
reply-pruned forest are those of the original forest. -/
theorem parse_prune_strip (fuel : Nat) (raws : List RTree) :
    (parseListingF (fuel + 1) (raws.map pruneNode)).map stripReplies =
      (parseListingF (fuel + 1) raws).map stripReplies := by
  induction raws with
  | nil => rfl
  | cons n rest ih =>
    rw [List.map_cons, parseListingF_succ_cons, parseListingF_succ_cons]
    have h := parseNodeAux_prune n (parseListingF fuel) (parseListingF fuel)
    rcases h1 : parseNodeAux (pruneNode n) (parseListingF fuel) with _ | c1 <;>
      rcases h2 : parseNodeAux n (parseListingF fuel) with _ | c2 <;>
      rw [h1, h2] at h
    · exact ih
    · simp at h
    · simp at h
    · rw [List.map_cons, List.map_cons, ih]
      simp only [Option.map_some'] at h
      rw [show stripReplies c1 = stripReplies c2 from by simpa using h]

/-- Deleting every nested reply from the source leaves the pipeline output
unchanged: nested reply nodes are omitted from aggregation in general. -/
theorem pipeline_prune (σ : List String → List String) (fuel : Nat)
    (rawss : List (List RTree)) :
    pipelineCards σ (fuel + 1) (rawss.map (List.map pruneNode)) =
      pipelineCards σ (fuel + 1) rawss := by
  apply aggregate_of_strip_eq
  induction rawss with
  | nil => rfl
  | cons raws rest ih =>
    rw [List.map_cons, List.flatMap_cons, List.flatMap_cons, List.map_append,
      List.map_append, ih, parse_prune_strip]

/-- Claim C1, counterexample: the aggregation consumes only the top-level
parsed comments — `aggregate_picks_by_votes` iterates the flat list returned
by `_parse_listing`, whose nested `replies` it never visits.  Here a
pick-bearing `t1` reply ("Chelsea ML", ups 50) of a pick-bearing parent
contributes nothing: the pipeline output is the single card of the parent
(ups 1), with no card for the reply's key. -/
theorem claim_C1_counterexample :
    pipelineCards (fun l => l) 3
        [[RTree.mk (some "t1") (some "a1") (some "alice") (some "Al Nassr ML") (some 1)
          (some 0)
          (some [RTree.mk (some "t1") (some "b1") (some "bob") (some "Chelsea ML")
            (some 50) (some 0) none])]] =
      [⟨"al_nassr:moneyline", "Community", "Al Nassr ML", "**alice:** Al Nassr ML", 1, 0,
        ["alice"], ""⟩] ∧
    (extract_picks_and_notes "Chelsea ML").1 ≠ "" :=
  ⟨by decide, by decide⟩

/-- Claim C1 as amended: every TOP-LEVEL comment node (a direct `t1` child of
a listing) whose body yields at least one extracted pick contributes its ups,
downs, author and notes to the aggregated PickCard of each canonical key its
phrases map to: the emitted card for that key has as ups (resp. downs) the
per-key sum over all aggregated comments in which this node's term occurs
with positive phrase count and its parsed ups (resp. downs), carries the
node's author among its contributors, and — when the node has notes — the
node's attributed note block among the joined note blocks.  Nested reply
nodes are omitted from aggregation in general: the aggregation result is
invariant under erasing every comment's `replies` field, and deleting every
nested reply subtree from the source leaves the pipeline output unchanged. -/
theorem claim_C1_top_level_contribution (σ : List String → List String) (fuel : Nat)
    (rawss : List (List RTree)) (raws : List RTree) (hraws : raws ∈ rawss)
    (idv authorv bodyv : Option String) (upsv downsv : Option Int)
    (repliesv : Option (List RTree))
    (hn : RTree.mk (some "t1") idv authorv bodyv upsv downsv repliesv ∈ raws)
    (p : String) (hp : p ∈ bodyPhrases (bodyv.getD "")) :
    (∃ c ∈ rawss.flatMap (parseListingF (fuel + 1)),
      c.author = authorOrDeleted authorv ∧
      c.ups = upsv.getD 0 ∧
      c.downs = downsv.getD 0 ∧
      c.notes = (extract_picks_and_notes (bodyv.getD "")).2 ∧
      p ∈ individualPicks c ∧
      ∃ kb ∈ (rawss.flatMap (parseListingF (fuel + 1))).foldl processComment [],
        kb.1 = normalize_pick p ∧
        finalizeCard σ kb ∈ pipelineCards σ (fuel + 1) rawss ∧
        (finalizeCard σ kb).id = normalize_pick p ∧
        c.author ∈ (finalizeCard σ kb).contributors ∧
        (finalizeCard σ kb).ups =
          ((rawss.flatMap (parseListingF (fuel + 1))).map
            (fun d => (countKey (normalize_pick p) d : Int) * d.ups)).sum ∧
        (finalizeCard σ kb).downs =
          ((rawss.flatMap (parseListingF (fuel + 1))).map
            (fun d => (countKey (normalize_pick p) d : Int) * d.downs)).sum ∧
        1 ≤ countKey (normalize_pick p) c ∧
        (c.notes ≠ "" → ("**" ++ c.author ++ ":** " ++ c.notes) ∈ kb.2.notes) ∧
        (finalizeCard σ kb).notes = joinSepS "\n\n---\n" kb.2.notes) ∧
    (∀ cs : List PComment,
      aggregate_picks_by_votes σ (cs.map stripReplies) =
        aggregate_picks_by_votes σ cs) ∧
    pipelineCards σ (fuel + 1) (rawss.map (List.map pruneNode)) =
      pipelineCards σ (fuel + 1) rawss := by
  refine ⟨?_, ?_, pipeline_prune σ fuel rawss⟩
  · have hbne : (bodyv.getD "") ≠ "" := by
      intro h
      rw [h, bodyPhrases_empty] at hp
      simp at hp
    have hphne : bodyPhrases (bodyv.getD "") ≠ [] := fun h0 => by
      rw [h0] at hp
      simp at hp
    have hjoin := extract_picks_eq _ hbne
    have hpickne : (extract_picks_and_notes (bodyv.getD "")).1 ≠ "" := by
      rw [hjoin]
      exact joinNl_ne_empty _ hphne (fun t ht => (phrases_props _ t ht).2.1)
    rcases parse_keeps_node fuel raws idv authorv bodyv upsv downsv repliesv hn hpickne
      with ⟨c, hcmem, hauth, hcpicks, hcups, hcdowns, hcnotes⟩
    have hcomm : c ∈ rawss.flatMap (parseListingF (fuel + 1)) :=
      List.mem_flatMap.2 ⟨raws, hraws, hcmem⟩
    have hindiv : individualPicks c = bodyPhrases (bodyv.getD "") :=
      individualPicks_joinNl _ hphne (phrases_props _) c (hcpicks.trans hjoin)
    have hpind : p ∈ individualPicks c := hindiv ▸ hp
    rcases exists_card_full σ _ c hcomm p hpind with
      ⟨kb, hkbmem, hkbid, hkbcard, hkbauth, hkbups, hkbdowns, hkbcount, hkbnotes⟩
    exact ⟨c, hcomm, hauth, hcups, hcdowns, hcnotes, hpind, kb, hkbmem, hkbid, hkbcard,
      hkbid, hkbauth, hkbups, hkbdowns, hkbcount, hkbnotes, rfl⟩
  · intro cs
    apply aggregate_of_strip_eq
    induction cs with
    | nil => rfl
    | cons c cr ih =>
      simp only [List.map_cons]
      rw [ih]
      congr 1
      cases c
      rfl

/-- Witness for `claim_C1_top_level_contribution` on a one-listing,
one-node input (alice, "Al Nassr ML", ups 1), with the replies-erasure
instance taken at a concrete comment. -/
theorem claim_C1_top_level_contribution_witness :
    (∃ c ∈ [[RTree.mk (some "t1") (some "a1") (some "alice") (some "Al Nassr ML")
        (some 1) (some 0) none]].flatMap (parseListingF 3),
      c.author = "alice" ∧
      c.ups = 1 ∧
      c.downs = 0 ∧
      c.notes = (extract_picks_and_notes "Al Nassr ML").2 ∧
      "Al Nassr ML" ∈ individualPicks c ∧
      ∃ kb ∈ ([[RTree.mk (some "t1") (some "a1") (some "alice") (some "Al Nassr ML")
          (some 1) (some 0) none]].flatMap (parseListingF 3)).foldl processComment [],
        kb.1 = normalize_pick "Al Nassr ML" ∧
        finalizeCard (fun l => l) kb ∈ pipelineCards (fun l => l) 3
          [[RTree.mk (some "t1") (some "a1") (some "alice") (some "Al Nassr ML")
            (some 1) (some 0) none]] ∧
        (finalizeCard (fun l => l) kb).id = normalize_pick "Al Nassr ML" ∧
        c.author ∈ (finalizeCard (fun l => l) kb).contributors ∧
        (finalizeCard (fun l => l) kb).ups =
          (([[RTree.mk (some "t1") (some "a1") (some "alice") (some "Al Nassr ML")
            (some 1) (some 0) none]].flatMap (parseListingF 3)).map
            (fun d => (countKey (normalize_pick "Al Nassr ML") d : Int) * d.ups)).sum ∧
        (finalizeCard (fun l => l) kb).downs =
          (([[RTree.mk (some "t1") (some "a1") (some "alice") (some "Al Nassr ML")
            (some 1) (some 0) none]].flatMap (parseListingF 3)).map
            (fun d => (countKey (normalize_pick "Al Nassr ML") d : Int) * d.downs)).sum ∧
        1 ≤ countKey (normalize_pick "Al Nassr ML") c ∧
        (c.notes ≠ "" → ("**" ++ c.author ++ ":** " ++ c.notes) ∈ kb.2.notes) ∧
        (finalizeCard (fun l => l) kb).notes = joinSepS "\n\n---\n" kb.2.notes) ∧
    (∀ cs : List PComment,
      aggregate_picks_by_votes (fun l => l) (cs.map stripReplies) =
        aggregate_picks_by_votes (fun l => l) cs) ∧
    pipelineCards (fun l => l) 3
        ([[RTree.mk (some "t1") (some "a1") (some "alice") (some "Al Nassr ML")
          (some 1) (some 0) none]].map (List.map pruneNode)) =
      pipelineCards (fun l => l) 3
        [[RTree.mk (some "t1") (some "a1") (some "alice") (some "Al Nassr ML")
          (some 1) (some 0) none]] :=
  claim_C1_top_level_contribution (fun l => l) 2
    [[RTree.mk (some "t1") (some "a1") (some "alice") (some "Al Nassr ML")
      (some 1) (some 0) none]]
    [RTree.mk (some "t1") (some "a1") (some "alice") (some "Al Nassr ML")
      (some 1) (some 0) none]
    (List.Mem.head _) (some "a1") (some "alice") (some "Al Nassr ML") (some 1) (some 0)
    none (List.Mem.head _) "Al Nassr ML" (by decide)

/-- Emptiness of the parse is per-child rejection. -/
theorem parseListingF_eq_nil_iff (fuel : Nat) (raws : List RTree) :
    parseListingF (fuel + 1) raws = [] ↔
      ∀ n ∈ raws, parseNodeAux n (parseListingF fuel) = none := by
  induction raws with
  | nil => simp [parseListingF]
  | cons n rest ih =>
    rw [parseListingF_succ_cons]
    rcases hn : parseNodeAux n (parseListingF fuel) with _ | c
    · constructor
      · intro h m hm
        rcases List.mem_cons.1 hm with rfl | hm2
        · exact hn
        · exact (ih.1 h) m hm2
      · intro h
        exact ih.2 (fun m hm => h m (List.mem_cons_of_mem _ hm))
    · constructor
      · intro h
        exact absurd h (by simp)
      · intro h
        rw [h n (List.mem_cons_self _ _)] at hn
        exact absurd hn (by simp)

/-- Did a node (at any depth, up to the fuel bound) carry extractable
picks?  This is the "source genuinely contains a pick-bearing comment"
predicate of the claim. -/
def nodeHasPicks : RTree → Bool
  | .mk kind _ _ body _ _ _ =>
    kind = some "t1" && (extract_picks_and_notes (body.getD "")).1 != ""

/-- Does any node of the forest, at any depth up to `fuel`, satisfy
`nodeHasPicks`? -/
def anyNodeF : Nat → List RTree → Bool
  | 0, _ => false
  | fuel + 1, nodes =>
    nodes.any (fun n =>
      nodeHasPicks n ||
        (match n with
         | .mk _ _ _ _ _ _ (some l) => anyNodeF fuel l
         | _ => false))

deriving instance DecidableEq for Except

/-- Claim C10, counterexample: the parsed source contains a pick-bearing
comment ("Al Nassr ML", a nested `t1` reply of a pickless parent), yet the
endpoint returns a successful EMPTY result — indistinguishable from "no
picks yet" — because the parent is dropped before its replies are visited. -/
theorem claim_C10_counterexample :
    api_comments (fun l => l) 3 (FileState.parsed
      [[RTree.mk (some "t1") (some "p1") (some "pam") (some "hello") (some 7) (some 0)
        (some [RTree.mk (some "t1") (some "b1") (some "bob") (some "Al Nassr ML")
          (some 50) (some 0) none])]]) = .ok [] ∧
    anyNodeF 3
      [RTree.mk (some "t1") (some "p1") (some "pam") (some "hello") (some 7) (some 0)
        (some [RTree.mk (some "t1") (some "b1") (some "bob") (some "Al Nassr ML")
          (some 50) (some 0) none])] = true :=
  ⟨by decide, by decide⟩

/-- Claim C10 as amended: an unreadable or corrupt persisted snapshot is
reported as an explicit error (HTTP 500), distinct from every successful
result; a missing file yields a successful empty result; and a successful
parse yields the empty list exactly when the parser keeps no top-level
comment — which can happen even though a pick-bearing comment exists as a
nested reply (see the counterexample). -/
theorem claim_C10_error_vs_empty (σ : List String → List String) (fuel : Nat) :
    (∀ fs : FileState, (∃ e, api_comments σ fuel fs = .error e) ↔
      (fs = FileState.ioError ∨ fs = FileState.badJson)) ∧
    api_comments σ fuel FileState.missing = .ok [] ∧
    (∀ rawss : List (List RTree),
      api_comments σ fuel (FileState.parsed rawss) = .ok [] ↔
        rawss.flatMap (parseListingF fuel) = []) := by
  refine ⟨?_, rfl, ?_⟩
  · intro fs
    cases fs with
    | missing => simp [api_comments, load_comments]
    | ioError => simp [api_comments, load_comments]
    | badJson => simp [api_comments, load_comments]
    | parsed raws => simp [api_comments, load_comments]
  · intro rawss
    constructor
    · intro h
      rcases he : rawss.flatMap (parseListingF fuel) with _ | ⟨c, cs⟩
      · rfl
      · exfalso
        have hcmem : c ∈ rawss.flatMap (parseListingF fuel) := by
          rw [he]
          exact List.mem_cons_self _ _
        rcases List.mem_flatMap.1 hcmem with ⟨raws, _, hcp⟩
        have hne := individualPicks_parsed_ne_nil fuel raws c hcp
        rcases List.exists_mem_of_ne_nil _ hne with ⟨p, hp⟩
        rcases exists_card_of_pick σ _ c hcmem p hp with ⟨card, hcard, _, _⟩
        have h2 : pipelineCards σ fuel rawss = [] := by
          simpa [api_comments, load_comments] using h
        rw [show pipelineCards σ fuel rawss =
          aggregate_picks_by_votes σ (rawss.flatMap (parseListingF fuel)) from rfl] at h2
        rw [h2] at hcard
        simp at hcard
    · intro h
      show Except.ok (pipelineCards σ fuel rawss) = Except.ok []
      rw [show pipelineCards σ fuel rawss =
        aggregate_picks_by_votes σ (rawss.flatMap (parseListingF fuel)) from rfl, h]
      rfl

/-- Witness for `claim_C10_error_vs_empty`: the error direction at the
unreadable-file state and the empty direction at the empty source. -/
theorem claim_C10_error_vs_empty_witness :
    (∃ e, api_comments (fun l => l) 3 FileState.ioError = .error e) ∧
    api_comments (fun l => l) 3 (FileState.parsed []) = .ok [] :=
  ⟨((claim_C10_error_vs_empty (fun l => l) 3).1 FileState.ioError).2 (Or.inl rfl),
   ((claim_C10_error_vs_empty (fun l => l) 3).2.2 []).2 rfl⟩

/-- Claim C5: the phrases "Arsenal ML", "Arsenal ML @ 2.10" and
"arsenal moneyline" all canonicalize to the key "arsenal:moneyline"
(subject `arsenal`, bet type `moneyline`), and the line "Al Nassr ML"
segments to exactly the phrase "Al Nassr ML", which canonicalizes to
"al_nassr:moneyline". -/
theorem claim_C5_canonicalizer_grouping :
    normalize_pick "Arsenal ML" = "arsenal:moneyline" ∧
    normalize_pick "Arsenal ML @ 2.10" = "arsenal:moneyline" ∧
    normalize_pick "arsenal moneyline" = "arsenal:moneyline" ∧
    extract_bet_segments "Al Nassr ML" = ["Al Nassr ML"] ∧
    normalize_pick "Al Nassr ML" = "al_nassr:moneyline" :=
  ⟨by decide, by decide, by decide, by decide, by decide⟩

/-- Claim C4, counterexample: the phrase "ML" contains the alias `ml` and
leaves an empty subject, yet the function does not return ":moneyline" (the
claimed `<subject>:<bettype>` form with empty subject) but falls back to the
degraded key "ml"; and in "Hamlet ML" the alias `ml` is removed at EVERY
occurrence (inside "hamlet" too), giving "haet:moneyline" instead of the
key "haet_ml:moneyline" that removing the alias substring once would give. -/
theorem claim_C4_counterexample :
    normalize_pick "ML" = "ml" ∧
    normalize_pick "ML" ≠ ":moneyline" ∧
    normalize_pick "Hamlet ML" = "haet:moneyline" ∧
    normalize_pick "Hamlet ML" ≠ "haet_ml:moneyline" :=
  ⟨by decide, by decide, by decide, by decide⟩

/-- Claim C4 as amended: when the lowercased, trimmed phrase contains an
alias of the fixed table (first matching entry in table order, per
`List.find?`), the bet type is that alias's canonical name and the subject is
obtained by removing EVERY occurrence of the alias, stripping, replacing the
punctuation `@()[]:-–,` by spaces, deleting numeric odds substrings and
underscore-joining the remaining tokens; the `<subject>:<bettype>` key is
returned only when the subject is nonempty — otherwise the whole phrase
collapses to the degraded fallback key. -/
theorem claim_C4_alias_branch (p a c : String)
    (h : betTypeMap.find?
      (fun ab => containsSub ab.1.data (pyStrip (pyLower p)).data) = some (a, c)) :
    normalize_pick p =
      (if subjectOf (pyStrip (pyLower p)) a ≠ "" then
        subjectOf (pyStrip (pyLower p)) a ++ ":" ++ c
       else fallbackKey (pyStrip (pyLower p))) := by
  simp only [normalize_pick, h]

/-- Witness for `claim_C4_alias_branch` at the phrase "Arsenal ML" (alias
`ml`, canonical bet type `moneyline`). -/
theorem claim_C4_alias_branch_witness :
    betTypeMap.find?
      (fun ab => containsSub ab.1.data (pyStrip (pyLower "Arsenal ML")).data) =
      some ("ml", "moneyline") ∧
    normalize_pick "Arsenal ML" =
      (if subjectOf (pyStrip (pyLower "Arsenal ML")) "ml" ≠ "" then
        subjectOf (pyStrip (pyLower "Arsenal ML")) "ml" ++ ":" ++ "moneyline"
       else fallbackKey (pyStrip (pyLower "Arsenal ML"))) :=
  ⟨by decide, claim_C4_alias_branch "Arsenal ML" "ml" "moneyline" (by decide)⟩

/-- Claim C9: the aggregator is a pure function of the comment list — there
is no hidden mutable state (`pick_data` is local to each call), so two runs
on the same input produce identical output. -/
theorem claim_C9_aggregator_deterministic (σ : List String → List String)
    (c1 c2 : List PComment) (h : c1 = c2) :
    aggregate_picks_by_votes σ c1 = aggregate_picks_by_votes σ c2 := by
  rw [h]

/-- Witness for `claim_C9_aggregator_deterministic` on a concrete run. -/
theorem claim_C9_aggregator_deterministic_witness :
    aggregate_picks_by_votes (fun l => l)
        [PComment.mk (some "c1") "carol" "" "Al Nassr ML" "" 2 0 []] =
      aggregate_picks_by_votes (fun l => l)
        [PComment.mk (some "c1") "carol" "" "Al Nassr ML" "" 2 0 []] :=
  claim_C9_aggregator_deterministic (fun l => l) _ _ rfl

/-- A comment whose `individual_picks` list is empty is a no-op for the
accumulation table. -/
theorem processComment_of_no_picks (bs : List (String × Bucket)) (c : PComment)
    (h : individualPicks c = []) : processComment bs c = bs := by
  unfold processComment
  rw [h]
  rfl

/-- Claim C8: a comment whose body yields zero pick phrases is excluded from
every parsed comment list (top-level and nested alike: the statement
quantifies over all listings), and a comment carrying no picks contributes
nothing — votes, contributors or notes — to the aggregation output, without
raising any error (all functions involved are total). -/
theorem claim_C8_zero_pick_comments_contribute_nothing :
    (∀ (fuel : Nat) (raws : List RTree) (c : PComment),
      c ∈ parseListingF fuel raws → c.picks ≠ "") ∧
    (∀ (σ : List String → List String) (l1 l2 : List PComment) (c : PComment),
      individualPicks c = [] →
      aggregate_picks_by_votes σ (l1 ++ c :: l2) = aggregate_picks_by_votes σ (l1 ++ l2)) := by
  constructor
  · exact picks_ne_of_mem_parse
  · intro σ l1 l2 c h
    unfold aggregate_picks_by_votes
    rw [List.foldl_append, List.foldl_append, List.foldl_cons,
      processComment_of_no_picks _ _ h]

/-- Witness for `claim_C8_zero_pick_comments_contribute_nothing`: a parsed
pick-bearing comment indeed has nonempty picks, and inserting a comment with
an empty body into a concrete run leaves the output unchanged. -/
theorem claim_C8_witness :
    (PComment.mk (some "a1") "alice" "Al Nassr ML" "Al Nassr ML" "Al Nassr ML"
        1 0 []).picks ≠ "" ∧
    aggregate_picks_by_votes (fun l => l)
        ([PComment.mk (some "c1") "carol" "" "Al Nassr ML" "" 2 0 []] ++
          PComment.mk none "x" "" "" "" 5 0 [] :: []) =
      aggregate_picks_by_votes (fun l => l)
        ([PComment.mk (some "c1") "carol" "" "Al Nassr ML" "" 2 0 []] ++ []) :=
  ⟨claim_C8_zero_pick_comments_contribute_nothing.1 3
      [RTree.mk (some "t1") (some "a1") (some "alice") (some "Al Nassr ML")
        (some 1) (some 0) none] _ (List.Mem.head _),
    claim_C8_zero_pick_comments_contribute_nothing.2 (fun l => l) _ _ _ (by decide)⟩

end SoccerApp
